import Mathlib

/-!
safepool: invite tokens, S3 transport and sub-pool naming

A shallow embedding of the parts of `code-to-go/safepool` that the checked
properties are about:

* `transport/s3.go`: `S3.Touched`, `S3.Write`, `S3.ReadDir`, `S3.Delete`, over an
  in-memory bucket that stands for the remote object store;
* `pool/sub.go`: `Pool.Sub`, with Go's `path.Split`, `path.Join`, `path.Clean`;
* `apps/invite/invite.go`: `Invite.Join`, `Encode`, `Decode`, with Go's
  `encoding/base64` standard encoding and the single byte forms of
  `strings.ReplaceAll` and `strings.Split`.

Go strings are lists of characters, byte slices are lists of `Fin 256`.
Packages of the repository that are not part of the embedded sources
(`security`, `core`, the rest of `pool`) and `encoding/json` enter as records of
functions.
-/

set_option autoImplicit false

namespace Safepool

/-! ## Basic types -/

/-- A Go string. -/
abbrev Str := List Char

/-- A Go byte. -/
abbrev Byte := Fin 256

/-- A Go byte slice. -/
abbrev Bytes := List Byte

/-- A string literal as a Go string. -/
def str (s : String) : Str := s.data

/-- The error values the embedded code returns or passes on. `other n` stands
for any error produced by a collaborator (store, network, crypto, JSON). -/
inductive Error where
  | ErrInvalidToken
  | ErrNotAuthorized
  | ErrInvalidSignature
  | other (code : Nat)
deriving DecidableEq, Repr

deriving instance DecidableEq for Except

/-! ## Go `time` -/

/-- An instant of `time.Time`, counted from the zero time. -/
abbrev Time := Int

/-- The zero value of `time.Time`, what a Go map returns for a missing key. -/
def zeroTime : Time := 0

/-- Go `t.After(u)`: `t` is strictly after `u`. -/
def After (t u : Time) : Bool := decide (u < t)

/-! ## Go `path` -/

namespace path

/-- The backtracking of `path.Clean` on a `..` element, as the new write index:
`out.w--` has been done by the caller, and the index keeps going down while
`out.w > dotdot && out.index(out.w) != '/'`. -/
def backtrack (out : Str) (dotdot : Nat) : Nat → Nat
  | 0 => 0
  | w + 1 =>
    if dotdot < w + 1 ∧ out.get? (w + 1) ≠ some '/' then backtrack out dotdot w else w + 1

/-- The state of the loop of `path.Clean`: the output buffer and the index
`dotdot` up to which the output may not be backtracked. -/
structure Lazybuf where
  out : Str
  dotdot : Nat
deriving DecidableEq, Repr

/-- The `..` case of the loop of `path.Clean`. -/
def dotdotStep (rooted : Bool) (b : Lazybuf) : Lazybuf :=
  if b.dotdot < b.out.length then
    { b with out := b.out.take (backtrack b.out b.dotdot (b.out.length - 1)) }
  else if !rooted then
    let out1 := if 0 < b.out.length then b.out ++ ['/'] else b.out
    let out2 := out1 ++ ['.', '.']
    { out := out2, dotdot := out2.length }
  else b

/-- The separator the default case of `path.Clean` writes before an element:
`if rooted && out.w != 1 || !rooted && out.w != 0 { out.append('/') }`. -/
def sepStep (rooted : Bool) (b : Lazybuf) : Lazybuf :=
  if (rooted && b.out.length != 1) || (!rooted && b.out.length != 0) then
    { b with out := b.out ++ ['/'] }
  else b

/-- The main loop of `path.Clean` over the unread input. `inElem` is true while
the inner loop of the default case is copying an element (it stops at the next
`'/'`, which the first case of the outer loop then skips). The cases are those
of the Go `switch`, in its order. -/
def loop (rooted : Bool) : Str → Bool → Lazybuf → Lazybuf
  | [], _, b => b
  | c :: rest, true, b =>
    if c = '/' then loop rooted rest false b
    else loop rooted rest true { b with out := b.out ++ [c] }
  | c :: rest, false, b =>
    if c = '/' then loop rooted rest false b
    else if c = '.' ∧ (rest = [] ∨ rest.head? = some '/') then loop rooted rest false b
    else
      match rest with
      | d :: rest2 =>
        if c = '.' ∧ d = '.' ∧ (rest2 = [] ∨ rest2.head? = some '/') then
          loop rooted rest2 false (dotdotStep rooted b)
        else
          loop rooted (d :: rest2) true
            { (sepStep rooted b) with out := (sepStep rooted b).out ++ [c] }
      | [] =>
        loop rooted [] true { (sepStep rooted b) with out := (sepStep rooted b).out ++ [c] }

/-- The state in which the loop of `path.Clean` ends on the path `c :: rest`: a
rooted path starts with the output `/` and is read from its second byte. -/
def cleanBuf (c : Char) (rest : Str) : Lazybuf :=
  loop (decide (c = '/')) (if c = '/' then rest else c :: rest) false
    (if c = '/' then ⟨['/'], 1⟩ else ⟨[], 0⟩)

/-- Go `path.Clean`. -/
def Clean (p : Str) : Str :=
  match p with
  | [] => ['.']
  | c :: rest => if (cleanBuf c rest).out.length = 0 then ['.'] else (cleanBuf c rest).out

/-- Index of the last `'/'` of a string plus one, 0 when there is none:
`strings.LastIndex(path, "/") + 1`. -/
def lastSlash : Str → Nat
  | [] => 0
  | c :: rest =>
    if '/' ∈ rest then lastSlash rest + 1
    else if c = '/' then 1 else 0

/-- Go `path.Split`: `path[:i+1], path[i+1:]` for the last slash `i`. -/
def Split (p : Str) : Str × Str :=
  (p.take (lastSlash p), p.drop (lastSlash p))

/-- The buffer `path.Join` builds from its elements: empty elements are skipped
while the buffer is empty, the others are separated by `'/'`. -/
def joinBuf : Str → List Str → Str
  | buf, [] => buf
  | buf, e :: es =>
    if 0 < buf.length ∨ e ≠ [] then
      joinBuf ((if 0 < buf.length then buf ++ ['/'] else buf) ++ e) es
    else joinBuf buf es

/-- Go `path.Join`. -/
def Join (elem : List Str) : Str :=
  if (elem.map List.length).sum = 0 then [] else Clean (joinBuf [] elem)

end path

/-! ## `transport/s3.go` -/

/-- An object of the bucket, as `HeadObject` and `ListObjects` report it. -/
structure Object where
  Key : Str
  LastModified : Time
  Size : Nat
deriving DecidableEq, Repr

/-- The conditions under which the requests of one call reach the store: which
kinds of request fail, and the time the store stamps on an object written
during the call. -/
structure Conn where
  now : Time
  headFails : Bool := false
  putFails : Bool := false
  listFails : Bool := false
  deleteFails : Str → Bool := fun _ => false

/-- Type `S3` of the source: the bucket (the remote content the client talks
to) and the local map `touch`. A Go map is the list of its entries. -/
structure S3 where
  objects : List Object
  touch : List (Str × Time)
deriving DecidableEq, Repr

/-- Reading a Go `map[string]time.Time`: the zero time for a missing key. -/
def mapGet (m : List (Str × Time)) (k : Str) : Time :=
  (m.lookup k).getD zeroTime

/-- Assigning to a Go map. -/
def mapSet (m : List (Str × Time)) (k : Str) (v : Time) : List (Str × Time) :=
  (k, v) :: m.filter (fun e => e.1 != k)

/-- Request `HeadObject`: the object stored under the key, `none` when the
request fails or there is no such object. -/
def S3.HeadObject (s : S3) (c : Conn) (key : Str) : Option Object :=
  if c.headFails then none else s.objects.find? (fun o => o.Key == key)

/-- `S3.Write`: `PutObject` of a body of `size` bytes under `name`. -/
def S3.Write (s : S3) (c : Conn) (name : Str) (size : Nat) : Option Error × S3 :=
  if c.putFails then (some (Error.other 1), s)
  else (none, { s with objects := ⟨name, c.now, size⟩ :: s.objects.filter (fun o => o.Key != name) })

/-- `S3.Touched`. -/
def S3.Touched (s : S3) (c : Conn) (name : Str) : Bool × S3 :=
  let touchFile := name ++ str ".touch"
  match s.HeadObject c touchFile with
  | none => (true, s)
  | some h =>
    if After h.LastModified (mapGet s.touch name) then
      match s.Write c touchFile 0 with
      | (none, s1) => (true, { s1 with touch := mapSet s1.touch name h.LastModified })
      | (some _, s1) => (true, s1)
    else (false, s)

/-- Request `ListObjects` with a prefix and a delimiter, field `Contents` of the
answer: the objects whose key starts with the prefix and has no delimiter after
it (the others are rolled up into `CommonPrefixes`), at most 1000 of them. -/
def S3.ListObjects (s : S3) (c : Conn) (pfx : Str) (delimiter : Char) :
    Except Error (List Object) :=
  if c.listFails then .error (Error.other 2)
  else .ok ((s.objects.filter
    (fun o => pfx.isPrefixOf o.Key && !(o.Key.drop pfx.length).contains delimiter)).take 1000)

/-- Request `DeleteObject`; deleting a key that is not there succeeds. -/
def S3.DeleteObject (s : S3) (c : Conn) (key : Str) : Option Error × S3 :=
  if c.deleteFails key then (some (Error.other 3), s)
  else (none, { s with objects := s.objects.filter (fun o => o.Key != key) })

/-- The loop of `S3.Delete` over the listed items; it returns at the first
request that fails. -/
def S3.deleteItems (s : S3) (c : Conn) : List Object → Option Error × S3
  | [] => (none, s)
  | item :: items =>
    match s.DeleteObject c item.Key with
    | (some err, s1) => (some err, s1)
    | (none, s1) => S3.deleteItems s1 c items

/-- `S3.Delete`. -/
def S3.Delete (s : S3) (c : Conn) (name : Str) : Option Error × S3 :=
  match s.ListObjects c (name ++ ['/']) '/' with
  | .ok (item :: items) => s.deleteItems c (item :: items)
  | _ => s.DeleteObject c name

/-- Type `simpleFileInfo` of the transport package. -/
structure simpleFileInfo where
  name : Str
  size : Nat
  isDir : Bool
  modTime : Time
deriving DecidableEq, Repr

/-- The Go slice expression `key[cut+1:]`; `none` is the run-time panic
"slice bounds out of range". -/
def sliceFrom (key : Str) (from1 : Nat) : Option Str :=
  if from1 ≤ key.length then some (key.drop from1) else none

/-- The body of the loop of `S3.ReadDir` for one listed item. -/
def S3.entry (dir : Str) (item : Object) : Option simpleFileInfo :=
  let cut := (path.Clean dir).length
  match sliceFrom item.Key (cut + 1) with
  | none => none
  | some name => some { name := name, size := item.Size, isDir := false, modTime := item.LastModified }

/-- The loop of `S3.ReadDir`; `none` when an iteration panics. -/
def S3.entries (dir : Str) : List Object → Option (List simpleFileInfo)
  | [] => some []
  | item :: items =>
    match S3.entry dir item, S3.entries dir items with
    | some i, some is => some (i :: is)
    | _, _ => none

/-- `S3.ReadDir`: `none` is a panic, `some (.error _)` a returned error. -/
def S3.ReadDir (s : S3) (c : Conn) (dir : Str) : Option (Except Error (List simpleFileInfo)) :=
  match s.ListObjects c (dir ++ ['/']) '/' with
  | .error err => some (.error err)
  | .ok contents =>
    match S3.entries dir contents with
    | none => none
    | some infos => some (.ok infos)

/-! ## Go `strings` and `encoding/base64` -/

namespace strings

/-- Go `strings.ReplaceAll(s, old, new)` for one-byte `old` and `new`. -/
def ReplaceAll (s : Str) (old new : Char) : Str :=
  s.map (fun c => if c = old then new else c)

/-- Go `strings.Split(s, sep)` for a one-byte separator: the pieces between the
separators, one piece (the whole string) when there is no separator. -/
def Split : Str → Char → List Str
  | [], _ => [[]]
  | c :: rest, sep =>
    if c = sep then [] :: Split rest sep
    else
      match Split rest sep with
      | [] => [[c]]
      | p :: ps => (c :: p) :: ps

end strings

namespace base64

/-- The alphabet of `base64.StdEncoding`. -/
def encodeStd : Str :=
  str "ABCDEFGHIJKLMNOPQRSTUVWXYZabcdefghijklmnopqrstuvwxyz0123456789+/"

/-- Table `enc.encode` of the standard encoding. -/
def encode (i : Nat) : Char := encodeStd.getD i 'A'

/-- Table `enc.decodeMap`: the index of a character of the alphabet, `none` (the
entry `0xff`) for any other character. -/
def decodeMap (c : Char) : Option Nat :=
  if c ∈ encodeStd then some (encodeStd.indexOf c) else none

/-- The conversion `byte(x)` of an unsigned integer. -/
def byteOf (n : Nat) : Byte := ⟨n % 256, Nat.mod_lt _ (by decide)⟩

/-- `StdEncoding.EncodeToString`: three bytes give four characters, a rest of
one or two bytes is padded with `'='`. Shifts and masks are written as
divisions and remainders. -/
def EncodeToString : Bytes → Str
  | a :: b :: c :: rest =>
    let val := a.val * 65536 + b.val * 256 + c.val
    encode (val / 262144 % 64) :: encode (val / 4096 % 64) :: encode (val / 64 % 64) ::
      encode (val % 64) :: EncodeToString rest
  | [a, b] =>
    let val := a.val * 65536 + b.val * 256
    [encode (val / 262144 % 64), encode (val / 4096 % 64), encode (val / 64 % 64), '=']
  | [a] =>
    let val := a.val * 65536
    [encode (val / 262144 % 64), encode (val / 4096 % 64), '=', '=']
  | [] => []

/-- The end of `decodeQuantum`: the 6 bit values read (missing ones are 0) are
packed into `val` and the first `dlen - 1` of its three bytes are written. The
values are below 64, so the sum is the bitwise or of the shifted values. -/
def quantum (dbuf : List Nat) : Bytes :=
  let val := dbuf.getD 0 0 * 262144 + dbuf.getD 1 0 * 4096 + dbuf.getD 2 0 * 64 + dbuf.getD 3 0
  [byteOf (val / 65536), byteOf (val / 256), byteOf val].take (dbuf.length - 1)

/-- A character `decodeQuantum` skips. -/
def isNewline (c : Char) : Bool := c == '\n' || c == '\r'

/-- `StdEncoding.Decode` as the repeated `decodeQuantum`: `dbuf` holds the values
of the quantum being read, `out` the bytes written so far. The result is the
bytes written and whether an error is returned with them: a character outside
the alphabet, wrong or missing padding, or anything but newlines after the
padding. -/
def decodeLoop : Str → List Nat → Bytes → Bytes × Bool
  | [], dbuf, out => (out, decide (dbuf ≠ []))
  | c :: rest, dbuf, out =>
    match decodeMap c with
    | some v =>
      if dbuf.length = 3 then decodeLoop rest [] (out ++ quantum (dbuf ++ [v]))
      else decodeLoop rest (dbuf ++ [v]) out
    | none =>
      if isNewline c then decodeLoop rest dbuf out
      else if c ≠ '=' then (out, true)
      else if dbuf.length < 2 then (out, true)
      else if dbuf.length = 2 then
        match rest.dropWhile isNewline with
        | [] => (out, true)
        | d :: rest2 =>
          if d ≠ '=' then (out, true)
          else (out ++ quantum dbuf, decide (rest2.dropWhile isNewline ≠ []))
      else (out ++ quantum dbuf, decide (rest.dropWhile isNewline ≠ []))

/-- `StdEncoding.DecodeString` with its error dropped, as `Decode` calls it:
`tk, _ := base64.StdEncoding.DecodeString(tk64)`. -/
def DecodeString (s : Str) : Bytes := (decodeLoop s [] []).1

end base64

/-! ## `pool` and `security` -/

/-- A key pair of an identity; the private part is empty in the public form. -/
structure Key where
  Public : Bytes
  Private : Bytes
deriving DecidableEq, Repr

/-- Modelled from the spec: type `security.Identity`, "a public signing key, a
public key-agreement key, and an optional nickname", whose private counterparts
exist only locally. -/
structure Identity where
  Nick : Str
  SignatureKey : Key
  EncryptionKey : Key
deriving DecidableEq, Repr

/-- Type `pool.Config` with the fields `Pool.Sub` and `Invite.Join` use. -/
structure Config where
  Name : Str
  Public : List Str
  Private : List Str
deriving DecidableEq, Repr

/-- The fields of `pool.Pool` that `Pool.Sub` reads. -/
structure Pool where
  Name : Str
  Self : Identity
  config : Config
deriving DecidableEq, Repr

/-- Type `Invite` of `apps/invite/invite.go`; a nil `Config` is `none`. -/
structure Invite where
  Subject : Str
  Sender : Identity
  RecipientIds : List Str
  Config : Option Config
deriving DecidableEq, Repr

/-- The zero value `Invite{}`. -/
def Invite.zero : Invite := ⟨[], ⟨[], ⟨[], []⟩, ⟨[], []⟩⟩, [], none⟩

/-- The zero value `Config{}`. -/
def Config.zero : Config := ⟨[], [], []⟩

/-- Type `Token` of `apps/invite/invite.go`. The map `Keys` is the list of its
entries in the order a `range` over it visits them. -/
structure Token where
  Subject : Str
  SenderId : Str
  SenderNick : Str
  Noonce : Bytes
  Keys : List (Str × Bytes)
  Config : Bytes
deriving DecidableEq, Repr

/-- A call to a collaborator that keeps or reads secrets or persistent state. -/
inductive Call where
  | SetIdentity (i : Identity)
  | Trust (i : Identity) (trusted : Bool)
  | Define (c : Config)
  | Verify (id : Str) (data sig : Bytes)
  | EcDecrypt (self : Identity) (key : Bytes)
  | DecryptBlock (key nonce data : Bytes)
  | UnmarshalConfig (data : Bytes)
deriving DecidableEq, Repr

/-- The functions of package `security` and of `encoding/json` that `Encode` and
`Decode` call. `GetIdentity` is the trust store as it is during the call.
`EcDecrypt` may return a nil slice, `none`. A primitive that draws random bytes
is the function of its arguments that one run of the code sees; the results of
`GenerateBytesKey` are arguments of `Encode`. `unmarshalConfig` parses into a
zero `Config`, `unmarshalToken` into a zero `Token`. -/
structure Security where
  IdOf : Bytes → Bytes → Str
  Verify : Str → Bytes → Bytes → Bool
  Sign : Identity → Bytes → Except Error Bytes
  GetIdentity : Str → Option Identity
  IdentityFromId : Str → Except Error Identity
  EcEncrypt : Identity → Bytes → Except Error Bytes
  EcDecrypt : Identity → Bytes → Except Error (Option Bytes)
  EncryptBlock : Bytes → Bytes → Bytes → Except Error Bytes
  DecryptBlock : Bytes → Bytes → Bytes → Except Error Bytes
  marshalConfig : Option Config → Except Error Bytes
  unmarshalConfig : Bytes → Except Error Config
  marshalToken : Token → Except Error Bytes
  unmarshalToken : Bytes → Except Error Token

/-- Modelled from the spec: method `Identity.Id`, "a compact, deterministic
encoding of the two public keys"; the encoding itself is `Security.IdOf`. -/
def Identity.Id (sec : Security) (i : Identity) : Str :=
  sec.IdOf i.SignatureKey.Public i.EncryptionKey.Public

/-- The functions of packages `security` and `pool` that change persistent
state of type `σ`: the trust store and the pool definitions. -/
structure Persist (σ : Type) where
  SetIdentity : Identity → σ → Option Error × σ
  Trust : Identity → Bool → σ → Option Error × σ
  Define : Config → σ → Option Error × σ
  Create : Identity → Str → List Str → σ → Except Error Pool × σ
  SetAccess : Pool → Str → Int → σ → σ
  Close : Pool → σ → σ

/-- Access level `pool.Active`. -/
def Active : Int := 2

/-! ## `pool/sub.go` -/

/-- The name `Pool.Sub` gives the sub-pool of the pool named `poolName`:
```
parent, name := path.Split(p.Name)
if strings.HasPrefix(name, "#") { name = path.Join(parent, fmt.Sprintf("#%s", sub)) }
else { name = path.Join(p.Name, fmt.Sprintf("#%s", sub)) }
```
-/
def subName (poolName sub : Str) : Str :=
  let (parent, name) := path.Split poolName
  if (str "#").isPrefixOf name then path.Join [parent, str "#" ++ sub]
  else path.Join [poolName, str "#" ++ sub]

/-- `Pool.Sub`. The result is the returned `Config` and error, and the state the
calls to `Define`, `Create`, `SetAccess` and the deferred `Close` leave. -/
def Pool.Sub {σ : Type} (w : Persist σ) (p : Pool) (sub : Str) (ids : List Str)
    (apps : List Str) (st : σ) : (Config × Option Error) × σ :=
  let name := subName p.Name sub
  let c : Config := { Name := name, Public := p.config.Public, Private := p.config.Private }
  match w.Define c st with
  | (some err, st1) => ((Config.zero, some err), st1)
  | (none, st1) =>
    match w.Create p.Self name apps st1 with
    | (.error err, st2) => ((Config.zero, some err), st2)
    | (.ok p2, st2) =>
      ((c, none), w.Close p2 (ids.foldl (fun s id => w.SetAccess p2 id Active s) st2))

/-! ## `apps/invite/invite.go` -/

/-- `Invite.Join`. The result is the returned error, the state left, and the
calls made to `SetIdentity`, `Trust` and `Define`, in order. -/
def Invite.Join {σ : Type} (w : Persist σ) (i : Invite) (st : σ) :
    Option Error × σ × List Call :=
  match i.Config with
  | none => (some Error.ErrNotAuthorized, st, [])
  | some c =>
    if c.Name = [] ∨ c.Public.length + c.Private.length = 0 then
      (some Error.ErrInvalidToken, st, [])
    else
      match w.SetIdentity i.Sender st with
      | (some err, st1) => (some err, st1, [Call.SetIdentity i.Sender])
      | (none, st1) =>
        match w.Trust i.Sender true st1 with
        | (some err, st2) => (some err, st2, [Call.SetIdentity i.Sender, Call.Trust i.Sender true])
        | (none, st2) =>
          ((w.Define c st2).1, (w.Define c st2).2,
            [Call.SetIdentity i.Sender, Call.Trust i.Sender true, Call.Define c])

/-- Assigning to the Go map `t.Keys`: an entry with the same key is replaced. -/
def keysSet (m : List (Str × Bytes)) (k : Str) (v : Bytes) : List (Str × Bytes) :=
  if m.any (fun e => e.1 == k) then m.map (fun e => if e.1 == k then (k, v) else e)
  else m ++ [(k, v)]

/-- The loop of `Encode` over `RecipientIds`: an id that is not the id of an
identity, or to which the master key cannot be encrypted, gets no entry. -/
def encodeKeys (sec : Security) (masterKey : Bytes) :
    List Str → List (Str × Bytes) → List (Str × Bytes)
  | [], keys => keys
  | id :: ids, keys =>
    match sec.IdentityFromId id with
    | .ok identity =>
      match sec.EcEncrypt identity masterKey with
      | .ok key => encodeKeys sec masterKey ids (keysSet keys id key)
      | .error _ => encodeKeys sec masterKey ids keys
    | .error _ => encodeKeys sec masterKey ids keys

/-- The token `Encode` marshals and signs. `nonce` and `masterKey` are the
results of `GenerateBytesKey(aes.BlockSize)` and `GenerateBytesKey(32)`. -/
def encodeToken (sec : Security) (i : Invite) (nonce masterKey : Bytes) (c : Bytes) :
    Except Error Token :=
  let t : Token :=
    { Subject := i.Subject, SenderId := i.Sender.Id sec, SenderNick := i.Sender.Nick,
      Noonce := [], Keys := [], Config := c }
  if 0 < i.RecipientIds.length then
    match sec.EncryptBlock masterKey nonce c with
    | .error err => .error err
    | .ok cfg =>
      .ok { t with Noonce := nonce, Config := cfg,
                   Keys := encodeKeys sec masterKey i.RecipientIds [] }
  else .ok t

/-- The string `Encode` returns for the token bytes and their signature. -/
def wire (tk sig : Bytes) : Str :=
  strings.ReplaceAll (base64.EncodeToString tk ++ str ":" ++ base64.EncodeToString sig) '/' '_'

/-- `Encode`. -/
def Encode (sec : Security) (i : Invite) (nonce masterKey : Bytes) : Str × Option Error :=
  match sec.marshalConfig i.Config with
  | .error err => ([], some err)
  | .ok c =>
    match encodeToken sec i nonce masterKey c with
    | .error err => ([], some err)
    | .ok t =>
      match sec.marshalToken t with
      | .error err => ([], some err)
      | .ok tk =>
        match sec.Sign i.Sender tk with
        | .error err => ([], some err)
        | .ok sig => (wire tk sig, none)

/-- The first steps of `Decode`: undo the replacement, split on `':'`, and decode
both halves when there are exactly two. -/
def unwire (token : Str) : Option (Bytes × Bytes) :=
  match strings.Split (strings.ReplaceAll token '_' '/') ':' with
  | [tk64, sig64] => some (base64.DecodeString tk64, base64.DecodeString sig64)
  | _ => none

/-- The sender of a decoded token: from the trust store, else built from the id
with the nick of the token. -/
def decodeSender (sec : Security) (t : Token) : Except Error Identity :=
  match sec.GetIdentity t.SenderId with
  | some sender => .ok sender
  | none =>
    match sec.IdentityFromId t.SenderId with
    | .error err => .error err
    | .ok sender => .ok { sender with Nick := t.SenderNick }

/-- The loop of `Decode` over `t.Keys`: every id is appended to the recipients,
and the entry of `selfId` is decrypted into the master key. The result is the
error of a failed decryption, or the recipients and the master key (`none` is
nil), with the calls made. -/
def decodeKeys (sec : Security) (self : Identity) (selfId : Str) :
    List (Str × Bytes) → List Str → Option Bytes → List Call →
    Except Error (List Str × Option Bytes) × List Call
  | [], recipients, masterKey, calls => (.ok (recipients, masterKey), calls)
  | (id, key) :: rest, recipients, masterKey, calls =>
    if id = selfId then
      match sec.EcDecrypt self key with
      | .error err => (.error err, calls ++ [Call.EcDecrypt self key])
      | .ok mk =>
        decodeKeys sec self selfId rest (recipients ++ [id]) mk
          (calls ++ [Call.EcDecrypt self key])
    else decodeKeys sec self selfId rest (recipients ++ [id]) masterKey calls

/-- The end of `Decode`, after the loop: with a master key the config is
decrypted and parsed. -/
def decodeConfig (sec : Security) (t : Token) (i : Invite) (masterKey : Option Bytes)
    (calls : List Call) : (Invite × Option Error) × List Call :=
  match masterKey with
  | none => ((i, none), calls)
  | some mk =>
    match sec.DecryptBlock mk t.Noonce t.Config with
    | .error err => ((i, some err), calls ++ [Call.DecryptBlock mk t.Noonce t.Config])
    | .ok plain =>
      match sec.unmarshalConfig plain with
      | .error err =>
        ((i, some err),
          calls ++ [Call.DecryptBlock mk t.Noonce t.Config, Call.UnmarshalConfig plain])
      | .ok c =>
        (({ i with Config := some c }, none),
          calls ++ [Call.DecryptBlock mk t.Noonce t.Config, Call.UnmarshalConfig plain])

/-- `Decode`. The result is the returned `Invite` and error, and the calls made
to `Verify`, `EcDecrypt`, `DecryptBlock` and to the parser of the config, in
order. -/
def Decode (sec : Security) (self : Identity) (token : Str) :
    (Invite × Option Error) × List Call :=
  match unwire token with
  | none => ((Invite.zero, some Error.ErrInvalidToken), [])
  | some (tk, sig) =>
    match sec.unmarshalToken tk with
    | .error _ => ((Invite.zero, some Error.ErrInvalidToken), [])
    | .ok t =>
      if !sec.Verify t.SenderId tk sig then
        ((Invite.zero, some Error.ErrInvalidSignature), [Call.Verify t.SenderId tk sig])
      else
        match decodeSender sec t with
        | .error err => ((Invite.zero, some err), [Call.Verify t.SenderId tk sig])
        | .ok sender =>
          let i : Invite := { Subject := t.Subject, Sender := sender, RecipientIds := [], Config := none }
          match decodeKeys sec self (self.Id sec) t.Keys [] none [Call.Verify t.SenderId tk sig] with
          | (.error err, calls) => ((Invite.zero, some err), calls)
          | (.ok (recipients, masterKey), calls) =>
            decodeConfig sec t { i with RecipientIds := recipients } masterKey calls

/-! ## What the round trip assumes of the collaborators -/

/-- `Verify` accepts what `Sign` produced with the identity `s`. -/
def SignCorrect (sec : Security) (s : Identity) : Prop :=
  ∀ data sig, sec.Sign s data = .ok sig → sec.Verify (s.Id sec) data sig = true

/-- The id of `r` is the id of an identity to which a key can be encrypted, and
`EcDecrypt` with `r` undoes that `EcEncrypt`: the private key of `r` matches. -/
def EcCorrect (sec : Security) (r : Identity) : Prop :=
  ∃ pub, sec.IdentityFromId (r.Id sec) = .ok pub ∧
    ∀ mk, ∃ key, sec.EcEncrypt pub mk = .ok key ∧ sec.EcDecrypt r key = .ok (some mk)

/-- `DecryptBlock` undoes `EncryptBlock` with the same key and nonce. -/
def BlockCorrect (sec : Security) : Prop :=
  ∀ key nonce plain data, sec.EncryptBlock key nonce plain = .ok data →
    sec.DecryptBlock key nonce data = .ok plain

/-- JSON unmarshal undoes marshal: of a token, up to the order in which the map
`Keys` is visited, and of a config that is not nil. -/
def JsonCorrect (sec : Security) : Prop :=
  (∀ t data, sec.marshalToken t = .ok data →
    ∃ t2, sec.unmarshalToken data = .ok t2 ∧ t2.Subject = t.Subject ∧
      t2.SenderId = t.SenderId ∧ t2.SenderNick = t.SenderNick ∧ t2.Noonce = t.Noonce ∧
      t2.Config = t.Config ∧ t2.Keys.Perm t.Keys) ∧
  (∀ c data, sec.marshalConfig (some c) = .ok data → sec.unmarshalConfig data = .ok c)

/-- The id resolves to an identity with that id: the trust store returns one,
or it has none and `IdentityFromId` builds one. -/
def SenderKnown (sec : Security) (id : Str) : Prop :=
  (∀ s, sec.GetIdentity id = some s → s.Id sec = id) ∧
  (sec.GetIdentity id = none → ∃ s, sec.IdentityFromId id = .ok s ∧ s.Id sec = id)

/-! ## Concrete inputs -/

/-- A connection on which every request succeeds and writes are stamped `now`. -/
def okConn (now : Time) : Conn := { now := now }

/-- A bucket holding only the sentinel of channel `h`, last modified at time 1,
and a client that has remembered nothing yet. -/
def sentinelOnly : S3 := ⟨[⟨str "h.touch", 1, 0⟩], []⟩

/-- A bucket with an object `a`, a child `a/b`, a grandchild `a/c/d` and an
unrelated object `z`. -/
def treeBucket : S3 :=
  ⟨[⟨str "a", 1, 1⟩, ⟨str "a/b", 1, 1⟩, ⟨str "a/c/d", 1, 1⟩, ⟨str "z", 1, 1⟩], []⟩

/-- A bucket with a single object under the key `a//x`. -/
def doubleSlashBucket : S3 := ⟨[⟨str "a//x", 5, 1⟩], []⟩

/-- A bucket with a single object under the key `/`. -/
def slashBucket : S3 := ⟨[⟨str "/", 5, 1⟩], []⟩

/-- An identity with a one byte signing key and a one byte key-agreement key;
in the toy scheme below a private key matches the public key it is equal to. -/
def person (nick : String) (sk ek : Byte) : Identity :=
  ⟨str nick, ⟨[sk], [sk]⟩, ⟨[ek], [ek]⟩⟩

/-- An identity with nick `alice`. -/
def alice : Identity := person "alice" 1 2

/-- An identity with nick `bob`. -/
def bob : Identity := person "bob" 3 4

/-- An identity with nick `carol`. -/
def carol : Identity := person "carol" 5 6

/-- The public form of an identity, without its nick. -/
def publicForm (i : Identity) : Identity :=
  ⟨[], ⟨i.SignatureKey.Public, []⟩, ⟨i.EncryptionKey.Public, []⟩⟩

/-- The toy encoding of two public keys as an id: one letter for each byte. -/
def toyIdOf (sp ep : Bytes) : Str :=
  (sp ++ ep).map (fun b => Char.ofNat (97 + b.val))

/-- The identities whose ids the toy scheme can decode. -/
def people : List Identity := [alice, bob, carol]

/-- The identity with the given id, in public form. -/
def toyFromId (id : Str) : Except Error Identity :=
  match people.find? (fun p => toyIdOf p.SignatureKey.Public p.EncryptionKey.Public == id) with
  | some p => .ok (publicForm p)
  | none => .error (Error.other 4)

/-- Toy sealing under a key: the key is put in front of the plain bytes. -/
def toySeal (key plain : Bytes) : Bytes := key ++ plain

/-- Toy opening: the bytes after the key, when the sealed bytes start with it. -/
def toyOpen (key data : Bytes) : Except Error Bytes :=
  if key.isPrefixOf data then .ok (data.drop key.length) else .error (Error.other 5)

/-- The config of the invite in the examples. -/
def poolC : Config := ⟨str "p", [str "s3://host/bucket"], []⟩

/-- The token of the invite of `alice` to `bob` with the config `poolC`, nonce
`[7]` and master key `[8]`. -/
def tokenForBob : Token :=
  { Subject := str "hi", SenderId := str "bc", SenderNick := str "alice", Noonce := [7],
    Keys := [(str "de", [4, 8])], Config := [8, 7, 42] }

/-- The token of an invite of `alice` to nobody, with a nil config. -/
def tokenForNobody : Token :=
  { Subject := str "hi", SenderId := str "bc", SenderNick := str "alice", Noonce := [],
    Keys := [], Config := [0] }

/-- The tokens the toy JSON can write and read, with their bytes. -/
def toyTokens : List (Token × Bytes) := [(tokenForBob, [1]), (tokenForNobody, [2])]

/-- A toy instance of the collaborators: signing and sealing put the key in
front of the data, ids are decoded for `alice`, `bob` and `carol`, the trust
store is empty, and JSON is a table of the two tokens and of `poolC` (`null` is
`[0]` and leaves the config it is parsed into as it is). -/
def toySec : Security where
  IdOf := toyIdOf
  Verify := fun id data sig =>
    match toyFromId id with
    | .ok p => sig == p.SignatureKey.Public ++ data
    | .error _ => false
  Sign := fun s data => .ok (toySeal s.SignatureKey.Private data)
  GetIdentity := fun _ => none
  IdentityFromId := toyFromId
  EcEncrypt := fun p mk => .ok (toySeal p.EncryptionKey.Public mk)
  EcDecrypt := fun s key =>
    match toyOpen s.EncryptionKey.Private key with
    | .ok mk => .ok (some mk)
    | .error err => .error err
  EncryptBlock := fun key nonce plain => .ok (toySeal (key ++ nonce) plain)
  DecryptBlock := fun key nonce data => toyOpen (key ++ nonce) data
  marshalConfig := fun c =>
    match c with
    | none => .ok [0]
    | some c => if c = poolC then .ok [42] else .error (Error.other 6)
  unmarshalConfig := fun data =>
    if data = [42] then .ok poolC else if data = [0] then .ok Config.zero
    else .error (Error.other 6)
  marshalToken := fun t =>
    match toyTokens.find? (fun e => e.1 == t) with
    | some e => .ok e.2
    | none => .error (Error.other 6)
  unmarshalToken := fun data =>
    match toyTokens.find? (fun e => e.2 == data) with
    | some e => .ok e.1
    | none => .error (Error.other 6)

/-- The invite of `alice` to `bob`. -/
def inviteBob : Invite := ⟨str "hi", alice, [str "de"], some poolC⟩

/-- An invite of `alice` with a nil config and no recipient. -/
def inviteNobody : Invite := ⟨str "hi", alice, [], none⟩

/-- The toy collaborators with a `Verify` that accepts every signature and an
`IdentityFromId` that decodes no id; the trust store is empty. -/
def lenientSec : Security :=
  { toySec with
    Verify := fun _ _ _ => true
    IdentityFromId := fun _ => .error (Error.other 4) }

/-- A store on which every operation succeeds and `Create` opens the pool it
is asked for. -/
def okStore : Persist Unit where
  SetIdentity := fun _ st => (none, st)
  Trust := fun _ _ st => (none, st)
  Define := fun _ st => (none, st)
  Create := fun self name _ st => (.ok ⟨name, self, Config.zero⟩, st)
  SetAccess := fun _ _ _ st => st
  Close := fun _ st => st

/-- A store that cannot save an identity; everything else succeeds. -/
def readOnlyStore : Persist Unit := { okStore with SetIdentity := fun _ st => (some (Error.other 7), st) }

/-- A pool opened by `alice` under the given name. -/
def poolNamed (name : Str) : Pool := ⟨name, alice, { poolC with Name := name }⟩

/-! ## Theorems -/

/-! ### Go `path` -/

namespace path

theorem loop_nil (r : Bool) (m : Bool) (b : Lazybuf) : loop r [] m b = b := by
  cases m <;> rfl

theorem loop_true_cons (r : Bool) (c : Char) (rest : Str) (b : Lazybuf) :
    loop r (c :: rest) true b =
      if c = '/' then loop r rest false b
      else loop r rest true { b with out := b.out ++ [c] } := by
  rfl

theorem loop_false_cons (r : Bool) (c : Char) (rest : Str) (b : Lazybuf) :
    loop r (c :: rest) false b =
      if c = '/' then loop r rest false b
      else if c = '.' ∧ (rest = [] ∨ rest.head? = some '/') then loop r rest false b
      else
        match rest with
        | d :: rest2 =>
          if c = '.' ∧ d = '.' ∧ (rest2 = [] ∨ rest2.head? = some '/') then
            loop r rest2 false (dotdotStep r b)
          else
            loop r (d :: rest2) true
              { (sepStep r b) with out := (sepStep r b).out ++ [c] }
        | [] =>
          loop r [] true { (sepStep r b) with out := (sepStep r b).out ++ [c] } := by
  cases rest <;> rfl

theorem loop_slash (r : Bool) (rest : Str) (m : Bool) (b : Lazybuf) :
    loop r ('/' :: rest) m b = loop r rest false b := by
  cases m
  · rw [loop_false_cons]; simp
  · rw [loop_true_cons]; simp

/-- Copying an element: input without a slash is appended as it is. -/
theorem loop_copy (r : Bool) (s : Str) (b : Lazybuf) (hs : '/' ∉ s) :
    loop r s true b = { b with out := b.out ++ s } := by
  induction s generalizing b with
  | nil => simp [loop_nil]
  | cons c s ih =>
    have hc : c ≠ '/' := fun h => hs (by simp [h])
    have hs2 : '/' ∉ s := fun h => hs (by simp [h])
    rw [loop_true_cons, if_neg hc, ih _ hs2]
    simp

/-- An element that starts with neither a slash nor a dot is written after the
separator. -/
theorem loop_elem (r : Bool) (c : Char) (s : Str) (b : Lazybuf)
    (h1 : c ≠ '/') (h2 : c ≠ '.') (hs : '/' ∉ s) :
    loop r (c :: s) false b = { sepStep r b with out := (sepStep r b).out ++ c :: s } := by
  rw [loop_false_cons, if_neg h1, if_neg (fun h => h2 h.1)]
  cases s with
  | nil => simp [loop_nil]
  | cons d s2 =>
    simp only [h2, false_and, if_false]
    rw [loop_copy r (d :: s2) _ hs]
    simp

/-- The loop reads its input element by element: what follows a slash is read
from the state the loop is in at that slash. -/
theorem loop_append_slash (r : Bool) (n : Nat) :
    ∀ (a rest : Str) (m : Bool) (b : Lazybuf), a.length ≤ n →
      loop r (a ++ '/' :: rest) m b = loop r rest false (loop r a m b) := by
  induction n using Nat.strong_induction_on with
  | _ n ih =>
    intro a rest m b hlen
    cases a with
    | nil => simp [loop_slash, loop_nil]
    | cons c a1 =>
      have hlt : a1.length < n := by simp at hlen; omega
      cases m with
      | true =>
        simp only [List.cons_append, loop_true_cons]
        split
        · exact ih _ hlt a1 rest false b (le_refl _)
        · exact ih _ hlt a1 rest true _ (le_refl _)
      | false =>
        simp only [List.cons_append]
        rw [loop_false_cons, loop_false_cons r c a1]
        by_cases h1 : c = '/'
        · simp only [h1, if_true]
          exact ih _ hlt a1 rest false b (le_refl _)
        · simp only [h1, if_false]
          cases a1 with
          | nil =>
            by_cases h2 : c = '.'
            · simp [h2, loop_slash, loop_nil]
            · simp [h2, loop_slash, loop_nil]
          | cons d a2 =>
            have hlt2 : a2.length < n := by simp at hlen; omega
            by_cases h2 : c = '.' ∧ d = '/'
            · simp only [h2.1, h2.2, List.cons_append, List.head?_cons, true_and]
              simp only [reduceCtorEq, false_or, if_true]
              exact ih _ hlt ('/' :: a2) rest false b (le_refl _)
            · have h2a : ¬ (c = '.' ∧ ((d :: a2) ++ '/' :: rest = [] ∨
                  ((d :: a2) ++ '/' :: rest).head? = some '/')) := by
                simpa using h2
              have h2b : ¬ (c = '.' ∧ ((d :: a2) = [] ∨ (d :: a2).head? = some '/')) := by
                simpa using h2
              rw [if_neg h2a, if_neg h2b]
              simp only [List.cons_append]
              have hcond : (a2 ++ '/' :: rest = [] ∨ (a2 ++ '/' :: rest).head? = some '/') ↔
                  (a2 = [] ∨ a2.head? = some '/') := by
                cases a2 <;> simp
              by_cases h3 : c = '.' ∧ d = '.' ∧ (a2 = [] ∨ a2.head? = some '/')
              · rw [if_pos ⟨h3.1, h3.2.1, hcond.mpr h3.2.2⟩, if_pos h3]
                exact ih _ hlt2 a2 rest false _ (le_refl _)
              · have h3a : ¬ (c = '.' ∧ d = '.' ∧
                    (a2 ++ '/' :: rest = [] ∨ (a2 ++ '/' :: rest).head? = some '/')) := by
                  rw [hcond]; exact h3
                rw [if_neg h3a, if_neg h3]
                exact ih _ hlt (d :: a2) rest true _ (le_refl _)

theorem cleanBuf_append_slash (c : Char) (rest tail : Str) :
    cleanBuf c (rest ++ '/' :: tail) = loop (decide (c = '/')) tail false (cleanBuf c rest) := by
  unfold cleanBuf
  by_cases h : c = '/'
  · simp only [h, if_true]
    exact loop_append_slash _ _ rest tail false _ (le_refl _)
  · simp only [h, if_false]
    exact loop_append_slash _ _ (c :: rest) tail false _ (le_refl _)

theorem Clean_cons (c : Char) (rest : Str) :
    Clean (c :: rest) =
      if (cleanBuf c rest).out.length = 0 then ['.'] else (cleanBuf c rest).out := rfl

/-- The loop ends with a clean path other than `.` as its output. -/
theorem cleanBuf_of_clean (c : Char) (rest : Str) (h : Clean (c :: rest) = c :: rest)
    (hdot : c :: rest ≠ ['.']) : (cleanBuf c rest).out = c :: rest := by
  rw [Clean_cons] at h
  split at h
  · exact absurd h.symm hdot
  · exact h

/-- A further element, one that starts with neither a slash nor a dot, after a
clean path other than `.` and `/`, gives a clean path. -/
theorem Clean_append_elem (N : Str) (e0 : Char) (e : Str) (hN : N ≠ [])
    (hclean : Clean N = N) (hdot : N ≠ ['.']) (hroot : N ≠ ['/'])
    (h1 : e0 ≠ '/') (h2 : e0 ≠ '.') (he : '/' ∉ e) :
    Clean (N ++ '/' :: e0 :: e) = N ++ '/' :: e0 :: e := by
  cases N with
  | nil => exact absurd rfl hN
  | cons c rest =>
    have hout := cleanBuf_of_clean c rest hclean hdot
    simp only [List.cons_append, Clean_cons, cleanBuf_append_slash, loop_elem _ e0 e _ h1 h2 he]
    have hsep : (sepStep (decide (c = '/')) (cleanBuf c rest)).out = c :: rest ++ ['/'] := by
      unfold sepStep
      by_cases hc : c = '/'
      · have hr : rest ≠ [] := by
          intro hr; apply hroot; rw [hc, hr]
        have : rest.length ≠ 0 := by simpa using hr
        simp [hc] at hout
        simp [hc, hout, this]
      · simp [hc, hout]
    simp [hsep]

/-- The same element in the place of the last element of a clean path: the
directory part of the path is kept as it is. -/
theorem Clean_sibling (Q seg : Str) (e0 : Char) (e : Str)
    (hclean : Clean (Q ++ '/' :: e0 :: seg) = Q ++ '/' :: e0 :: seg)
    (h1 : e0 ≠ '/') (h2 : e0 ≠ '.') (hseg : '/' ∉ seg) (he : '/' ∉ e) :
    Clean ((Q ++ ['/']) ++ '/' :: e0 :: e) = (Q ++ ['/']) ++ e0 :: e := by
  cases Q with
  | nil =>
    simp only [List.nil_append, List.cons_append, Clean_cons]
    have : cleanBuf '/' ('/' :: e0 :: e) = ⟨'/' :: e0 :: e, 1⟩ := by
      unfold cleanBuf
      simp only [if_true, loop_slash, loop_elem _ e0 e _ h1 h2 he]
      simp [sepStep]
    simp [this]
  | cons c rest =>
    have hdot : c :: rest ++ '/' :: e0 :: seg ≠ ['.'] := by simp
    have hout := cleanBuf_of_clean c (rest ++ '/' :: e0 :: seg) hclean hdot
    rw [cleanBuf_append_slash, loop_elem _ e0 seg _ h1 h2 hseg] at hout
    simp only at hout
    have hsep : (sepStep (decide (c = '/')) (cleanBuf c rest)).out = c :: rest ++ ['/'] := by
      have h3 : (sepStep (decide (c = '/')) (cleanBuf c rest)).out ++ e0 :: seg
          = (c :: rest ++ ['/']) ++ e0 :: seg := by simpa using hout
      exact List.append_cancel_right h3
    have hin : c :: rest ++ ['/'] ++ '/' :: e0 :: e = c :: (rest ++ '/' :: '/' :: e0 :: e) := by
      simp
    rw [hin, Clean_cons, cleanBuf_append_slash, loop_slash, loop_elem _ e0 e _ h1 h2 he]
    simp [hsep]

theorem lastSlash_noSlash (s : Str) (hs : '/' ∉ s) : lastSlash s = 0 := by
  cases s with
  | nil => rfl
  | cons c s =>
    have hc : c ≠ '/' := fun h => hs (by simp [h])
    have hs2 : '/' ∉ s := fun h => hs (by simp [h])
    simp [lastSlash, hs2, hc]

theorem lastSlash_append (Q seg : Str) (hs : '/' ∉ seg) :
    lastSlash (Q ++ '/' :: seg) = Q.length + 1 := by
  induction Q with
  | nil => simp [lastSlash, hs]
  | cons c Q ih => simp [lastSlash, ih]

/-- `path.Split` cuts a path after its last slash. -/
theorem Split_dir (Q seg : Str) (hs : '/' ∉ seg) :
    Split ((Q ++ ['/']) ++ seg) = (Q ++ ['/'], seg) := by
  have h : (Q ++ ['/']) ++ seg = Q ++ '/' :: seg := by simp
  have hl : Q.length + 1 = (Q ++ ['/']).length := by simp
  unfold Split
  rw [h, lastSlash_append Q seg hs, ← h, hl, List.take_left, List.drop_left]

theorem Split_noSlash (seg : Str) (hs : '/' ∉ seg) : Split seg = ([], seg) := by
  simp [Split, lastSlash_noSlash seg hs]

end path

/-! ### `Pool.Sub` -/

theorem Join_two (a e : Str) (ha : a ≠ []) :
    path.Join [a, e] = path.Clean (a ++ '/' :: e) := by
  have h1 : a.length ≠ 0 := by simpa using ha
  have h2 : 0 < a.length := Nat.pos_of_ne_zero h1
  simp [path.Join, path.joinBuf, h2, ha]

theorem Join_empty_first (e0 : Char) (e : Str) :
    path.Join [[], e0 :: e] = path.Clean (e0 :: e) := by
  simp [path.Join, path.joinBuf]

/-- The name of a sub-pool, for a pool name `P ++ seg` cut after its last slash. -/
theorem subName_eq (P seg sub : Str) (hseg : '/' ∉ seg) (hP : P = [] ∨ ∃ Q, P = Q ++ ['/'])
    (hN : P ++ seg ≠ []) (hclean : path.Clean (P ++ seg) = P ++ seg)
    (hdot : P ++ seg ≠ str ".") (hroot : P ++ seg ≠ str "/") (hsub : '/' ∉ sub) :
    subName (P ++ seg) sub =
      if seg.head? = some '#' then P ++ str "#" ++ sub else (P ++ seg) ++ str "/#" ++ sub := by
  have hsplit : path.Split (P ++ seg) = (P, seg) := by
    rcases hP with hP | ⟨Q, hQ⟩
    · rw [hP]; exact path.Split_noSlash seg hseg
    · rw [hQ]; exact path.Split_dir Q seg hseg
  have hh : ('#' : Char) ≠ '/' := by decide
  have hd : ('#' : Char) ≠ '.' := by decide
  unfold subName
  rw [hsplit]
  simp only [str]
  cases seg with
  | nil =>
    simp only [List.isPrefixOf, List.head?_nil, reduceCtorEq, if_false, Bool.false_eq_true]
    rw [Join_two _ _ hN]
    simpa using path.Clean_append_elem (P ++ []) '#' sub hN hclean hdot hroot hh hd hsub
  | cons s0 seg1 =>
    by_cases h0 : s0 = '#'
    · subst h0
      have hseg1 : '/' ∉ seg1 := fun h => hseg (by simp [h])
      simp only [List.isPrefixOf, List.head?_cons, if_true, beq_self_eq_true, Bool.true_and]
      rcases hP with hP | ⟨Q, hQ⟩
      · subst hP
        simp only [List.nil_append, List.singleton_append]
        rw [Join_empty_first, path.Clean_cons]
        have : path.cleanBuf '#' sub = ⟨'#' :: sub, 0⟩ := by
          unfold path.cleanBuf
          simp only [hh, if_false]
          rw [path.loop_elem _ '#' sub _ hh hd hsub]
          simp [path.sepStep]
        simp [this]
      · subst hQ
        have hne : Q ++ ['/'] ≠ [] := by simp
        rw [Join_two _ _ hne]
        have hc2 : path.Clean (Q ++ '/' :: '#' :: seg1) = Q ++ '/' :: '#' :: seg1 := by
          simpa using hclean
        simpa using path.Clean_sibling Q seg1 '#' sub hc2 hh hd hseg1 hsub
    · have h0a : ¬ ('#' = s0) := fun h => h0 h.symm
      have hhead : ¬ ((s0 :: seg1).head? = some '#') := by simpa using h0
      simp only [hhead, if_false]
      rw [Join_two _ _ hN]
      simpa [h0a] using path.Clean_append_elem (P ++ s0 :: seg1) '#' sub hN hclean hdot hroot hh hd hsub

theorem Sub_ok_iff {σ : Type} (w : Persist σ) (p : Pool) (sub : Str) (ids apps : List Str)
    (st : σ) (c : Config) :
    (p.Sub w sub ids apps st).1 = (c, none) ↔
      c = { Name := subName p.Name sub, Public := p.config.Public, Private := p.config.Private } ∧
      ∃ st1 p2 st2, w.Define c st = (none, st1) ∧
        w.Create p.Self c.Name apps st1 = (.ok p2, st2) := by
  unfold Pool.Sub
  simp only
  constructor
  · intro h
    split at h
    · simp at h
    · rename_i st1 hD
      split at h
      · simp at h
      · rename_i p2 st2 hC
        simp only [Prod.mk.injEq, and_true] at h
        subst h
        exact ⟨rfl, st1, p2, st2, hD, hC⟩
  · rintro ⟨rfl, st1, p2, st2, hD, hC⟩
    simp only at hD hC
    simp [hD, hC]

/-- C8 (amended). For a pool whose name `N` is a non-empty clean path other than
`.` and `/`, cut after its last slash into `P ++ seg`, and a sub-name `s` without
a slash: a `Config` that `Sub` returns without error has the name `N + "/#" + s`
when `seg` does not start with `#`, and `P + "#" + s` (the last element of `N`
replaced, a sibling of the pool) when it does; its `Public` and `Private` lists
are those of the pool's config. `Sub` returns it without error whenever `Define`
and `Create` succeed on it. -/
theorem Sub_name {σ : Type} (w : Persist σ) (p : Pool) (sub : Str) (ids apps : List Str)
    (st : σ) (P seg : Str)
    (hName : p.Name = P ++ seg) (hseg : '/' ∉ seg) (hP : P = [] ∨ ∃ Q, P = Q ++ ['/'])
    (hN : p.Name ≠ []) (hclean : path.Clean p.Name = p.Name)
    (hdot : p.Name ≠ str ".") (hroot : p.Name ≠ str "/") (hsub : '/' ∉ sub) :
    (∀ c, (p.Sub w sub ids apps st).1 = (c, none) →
      c.Name = (if seg.head? = some '#' then P ++ str "#" ++ sub
                else p.Name ++ str "/#" ++ sub) ∧
      c.Public = p.config.Public ∧ c.Private = p.config.Private) ∧
    (∀ c st1 p2 st2,
      c = { Name := (if seg.head? = some '#' then P ++ str "#" ++ sub
                     else p.Name ++ str "/#" ++ sub),
            Public := p.config.Public, Private := p.config.Private } →
      w.Define c st = (none, st1) → w.Create p.Self c.Name apps st1 = (.ok p2, st2) →
      (p.Sub w sub ids apps st).1 = (c, none)) := by
  have hN2 := hN
  have hclean2 := hclean
  have hdot2 := hdot
  have hroot2 := hroot
  rw [hName] at hN2 hclean2 hdot2 hroot2
  have hsn := subName_eq P seg sub hseg hP hN2 hclean2 hdot2 hroot2 hsub
  rw [← hName] at hsn
  constructor
  · intro c hok
    obtain ⟨hc, -⟩ := (Sub_ok_iff w p sub ids apps st c).mp hok
    rw [hc]
    exact ⟨hsn, rfl, rfl⟩
  · intro c st1 p2 st2 hc hD hC
    refine (Sub_ok_iff w p sub ids apps st c).mpr ⟨?_, st1, p2, st2, hD, hC⟩
    rw [hc, hsn]

/-- Witness of C8 (amended): the pool `a/#b` gets the sibling `a/#s`. -/
theorem Sub_name_witness :
    ((poolNamed (str "a/#b")).Sub okStore (str "s") [] [] ()).1 =
      (⟨str "a/#s", [str "s3://host/bucket"], []⟩, none) :=
  (Sub_name okStore (poolNamed (str "a/#b")) (str "s") [] [] () (str "a/") (str "#b")
    (by decide) (by decide) (Or.inr ⟨str "a", by decide⟩) (by decide) (by decide)
    (by decide) (by decide) (by decide)).2
    ⟨str "a/#s", [str "s3://host/bucket"], []⟩ () ⟨str "a/#s", alice, Config.zero⟩ ()
    (by decide) rfl rfl

/-- C8 as stated fails for the clean names `/` and `.`: their last element does
not start with `#`, and `Sub` returns the names `/#s` and `#s`, not `//#s` and
`./#s`. -/
theorem Sub_name_root_and_dot :
    (path.Clean (str "/") = str "/" ∧ (path.Split (str "/")).2 = str "" ∧
      ((poolNamed (str "/")).Sub okStore (str "s") [] [] ()).1 =
        (⟨str "/#s", [str "s3://host/bucket"], []⟩, none) ∧
      str "/#s" ≠ str "/" ++ str "/#" ++ str "s") ∧
    (path.Clean (str ".") = str "." ∧ (path.Split (str ".")).2 = str "." ∧
      ((poolNamed (str ".")).Sub okStore (str "s") [] [] ()).1 =
        (⟨str "#s", [str "s3://host/bucket"], []⟩, none) ∧
      str "#s" ≠ str "." ++ str "/#" ++ str "s") := by
  decide

/-! ### `Invite.Join` -/

/-- C9 (amended). `Join` returns `ErrNotAuthorized` when `Config` is nil and
`ErrInvalidToken` when the name is empty or both URL lists are empty, in both
cases without calling `SetIdentity`, `Trust` or `Define` and leaving the state
as it was. Otherwise it calls `SetIdentity` on the sender and returns its error
if it fails; else calls `Trust` and returns its error if it fails; else calls
`Define` on the config and returns its result. -/
theorem Join_validates_first {σ : Type} (w : Persist σ) (i : Invite) (st : σ) :
    (i.Config = none → i.Join w st = (some Error.ErrNotAuthorized, st, [])) ∧
    (∀ c, i.Config = some c → (c.Name = [] ∨ (c.Public = [] ∧ c.Private = [])) →
      i.Join w st = (some Error.ErrInvalidToken, st, [])) ∧
    (∀ c, i.Config = some c → c.Name ≠ [] → (c.Public ≠ [] ∨ c.Private ≠ []) →
      (∀ err st1, w.SetIdentity i.Sender st = (some err, st1) →
        i.Join w st = (some err, st1, [Call.SetIdentity i.Sender])) ∧
      (∀ st1, w.SetIdentity i.Sender st = (none, st1) →
        (∀ err st2, w.Trust i.Sender true st1 = (some err, st2) →
          i.Join w st =
            (some err, st2, [Call.SetIdentity i.Sender, Call.Trust i.Sender true])) ∧
        (∀ st2, w.Trust i.Sender true st1 = (none, st2) →
          i.Join w st = ((w.Define c st2).1, (w.Define c st2).2,
            [Call.SetIdentity i.Sender, Call.Trust i.Sender true, Call.Define c])))) := by
  refine ⟨?_, ?_, ?_⟩
  · intro h
    simp [Invite.Join, h]
  · intro c h hbad
    have : c.Name = [] ∨ c.Public.length + c.Private.length = 0 := by
      rcases hbad with h1 | ⟨h2, h3⟩
      · exact Or.inl h1
      · right; simp [h2, h3]
    simp only [Invite.Join, h, if_pos this]
  · intro c h hname hurls
    have hgood : ¬ (c.Name = [] ∨ c.Public.length + c.Private.length = 0) := by
      intro hb
      rcases hb with h1 | h2
      · exact hname h1
      · have h3 : c.Public.length = 0 ∧ c.Private.length = 0 := by omega
        rcases hurls with h4 | h4
        · exact h4 (List.length_eq_zero.mp h3.1)
        · exact h4 (List.length_eq_zero.mp h3.2)
    refine ⟨?_, ?_⟩
    · intro err st1 hS
      simp only [Invite.Join, h, if_neg hgood, hS]
    · intro st1 hS
      refine ⟨?_, ?_⟩
      · intro err st2 hT
        simp only [Invite.Join, h, if_neg hgood, hS, hT]
      · intro st2 hT
        simp only [Invite.Join, h, if_neg hgood, hS, hT]

/-- Witness of C9 (amended): on a store where everything succeeds, a valid
invite is joined with the three calls in order. -/
theorem Join_validates_first_witness :
    (⟨str "hi", alice, [], some poolC⟩ : Invite).Join okStore () =
      (none, (), [Call.SetIdentity alice, Call.Trust alice true, Call.Define poolC]) :=
  ((Join_validates_first okStore ⟨str "hi", alice, [], some poolC⟩ ()).2.2 poolC rfl
    (by decide) (Or.inl (by decide))).2 () rfl |>.2 () rfl

/-- C9 as stated fails when the sender cannot be saved: for a valid config on a
store whose `SetIdentity` fails, `Join` returns that error, although `Define`
would return none, and calls neither `Trust` nor `Define`. -/
theorem Join_store_failure :
    (⟨str "hi", alice, [], some poolC⟩ : Invite).Join readOnlyStore () =
      (some (Error.other 7), (), [Call.SetIdentity alice]) ∧
    (readOnlyStore.Define poolC ()).1 = none ∧
    poolC.Name ≠ [] ∧ poolC.Public ≠ [] := by
  decide

/-! ### Go `encoding/base64` and `strings`, and the wire form of a token -/

namespace base64

theorem decodeMap_encode : ∀ i : Fin 64, decodeMap (encode i.val) = some i.val := by
  decide

theorem encode_mem : ∀ i : Fin 64, encode i.val ∈ encodeStd := by
  decide

theorem encode_slash : ∀ i : Fin 64, encode i.val = '/' → i.val = 63 := by
  decide

theorem alphabet_chars : ∀ c ∈ encodeStd, c ≠ ':' ∧ c ≠ '_' ∧ c ≠ '=' := by
  decide

theorem decodeLoop_cons (c : Char) (rest : Str) (dbuf : List Nat) (out : Bytes) :
    decodeLoop (c :: rest) dbuf out =
      match decodeMap c with
      | some v =>
        if dbuf.length = 3 then decodeLoop rest [] (out ++ quantum (dbuf ++ [v]))
        else decodeLoop rest (dbuf ++ [v]) out
      | none =>
        if isNewline c then decodeLoop rest dbuf out
        else if c ≠ '=' then (out, true)
        else if dbuf.length < 2 then (out, true)
        else if dbuf.length = 2 then
          match rest.dropWhile isNewline with
          | [] => (out, true)
          | d :: rest2 =>
            if d ≠ '=' then (out, true)
            else (out ++ quantum dbuf, decide (rest2.dropWhile isNewline ≠ []))
        else (out ++ quantum dbuf, decide (rest.dropWhile isNewline ≠ [])) := by
  rfl

theorem decodeLoop_encode (i : Nat) (hi : i < 64) (rest : Str) (dbuf : List Nat) (out : Bytes) :
    decodeLoop (encode i :: rest) dbuf out =
      if dbuf.length = 3 then decodeLoop rest [] (out ++ quantum (dbuf ++ [i]))
      else decodeLoop rest (dbuf ++ [i]) out := by
  rw [decodeLoop_cons, decodeMap_encode ⟨i, hi⟩]

theorem decodeLoop_four (i0 i1 i2 i3 : Nat) (h0 : i0 < 64) (h1 : i1 < 64) (h2 : i2 < 64)
    (h3 : i3 < 64) (rest : Str) (out : Bytes) :
    decodeLoop (encode i0 :: encode i1 :: encode i2 :: encode i3 :: rest) [] out =
      decodeLoop rest [] (out ++ quantum [i0, i1, i2, i3]) := by
  rw [decodeLoop_encode i0 h0]
  simp only [List.length_nil, List.nil_append, Nat.reduceEqDiff, if_false]
  rw [decodeLoop_encode i1 h1]
  simp only [List.length_cons, List.length_nil, List.cons_append, List.nil_append,
    Nat.reduceAdd, Nat.reduceEqDiff, if_false]
  rw [decodeLoop_encode i2 h2]
  simp only [List.length_cons, List.length_nil, List.cons_append, List.nil_append,
    Nat.reduceAdd, Nat.reduceEqDiff, if_false]
  rw [decodeLoop_encode i3 h3]
  simp only [List.length_cons, List.length_nil, List.cons_append, List.nil_append,
    Nat.reduceAdd, if_true]

theorem quantum_three (a b c : Byte) :
    quantum [(a.val * 65536 + b.val * 256 + c.val) / 262144 % 64,
      (a.val * 65536 + b.val * 256 + c.val) / 4096 % 64,
      (a.val * 65536 + b.val * 256 + c.val) / 64 % 64,
      (a.val * 65536 + b.val * 256 + c.val) % 64] = [a, b, c] := by
  have ha := a.isLt
  have hb := b.isLt
  have hc := c.isLt
  simp only [quantum, List.getD_cons_zero, List.getD_cons_succ, List.length_cons,
    List.length_nil, byteOf]
  simp only [List.take, Nat.reduceAdd, Nat.add_one_sub_one, List.cons.injEq, and_true]
  refine ⟨?_, ?_, ?_⟩ <;> (apply Fin.ext; simp only []; omega)


theorem decodeMap_pad : decodeMap '=' = none := by decide

theorem quantum_two (a b : Byte) :
    quantum [(a.val * 65536 + b.val * 256) / 262144 % 64,
      (a.val * 65536 + b.val * 256) / 4096 % 64,
      (a.val * 65536 + b.val * 256) / 64 % 64] = [a, b] := by
  have ha := a.isLt
  have hb := b.isLt
  simp only [quantum, List.getD_cons_zero, List.getD_cons_succ, List.length_cons,
    List.length_nil, byteOf, List.getD_nil]
  simp only [List.take, Nat.reduceAdd, Nat.add_one_sub_one, List.cons.injEq, and_true]
  refine ⟨?_, ?_⟩ <;> (apply Fin.ext; simp only []; omega)

theorem quantum_one (a : Byte) :
    quantum [(a.val * 65536) / 262144 % 64, (a.val * 65536) / 4096 % 64] = [a] := by
  have ha := a.isLt
  simp only [quantum, List.getD_cons_zero, List.getD_cons_succ, List.length_cons,
    List.length_nil, byteOf, List.getD_nil]
  simp only [List.take, Nat.reduceAdd, Nat.add_one_sub_one, List.cons.injEq, and_true]
  apply Fin.ext; simp only []; omega

/-- Decoding what `EncodeToString` wrote gives the bytes back, without error. -/
theorem decodeLoop_EncodeToString : ∀ (bs out : Bytes),
    decodeLoop (EncodeToString bs) [] out = (out ++ bs, false)
  | [], out => by simp [EncodeToString, decodeLoop]
  | [a], out => by
    have ha := a.isLt
    simp only [EncodeToString]
    rw [decodeLoop_encode _ (Nat.mod_lt _ (by decide))]
    simp only [List.length_nil, List.nil_append, Nat.reduceEqDiff, if_false]
    rw [decodeLoop_encode _ (Nat.mod_lt _ (by decide))]
    simp only [List.length_cons, List.length_nil, List.cons_append, List.nil_append,
      Nat.reduceAdd, Nat.reduceEqDiff, if_false]
    rw [decodeLoop_cons, decodeMap_pad]
    simp [isNewline, quantum_one]
  | [a, b], out => by
    simp only [EncodeToString]
    rw [decodeLoop_encode _ (Nat.mod_lt _ (by decide))]
    simp only [List.length_nil, List.nil_append, Nat.reduceEqDiff, if_false]
    rw [decodeLoop_encode _ (Nat.mod_lt _ (by decide))]
    simp only [List.length_cons, List.length_nil, List.cons_append, List.nil_append,
      Nat.reduceAdd, Nat.reduceEqDiff, if_false]
    rw [decodeLoop_encode _ (Nat.mod_lt _ (by decide))]
    simp only [List.length_cons, List.length_nil, List.cons_append, List.nil_append,
      Nat.reduceAdd, Nat.reduceEqDiff, if_false]
    rw [decodeLoop_cons, decodeMap_pad]
    simp [isNewline, quantum_two]
  | a :: b :: c :: rest, out => by
    simp only [EncodeToString]
    rw [decodeLoop_four _ _ _ _ (Nat.mod_lt _ (by decide)) (Nat.mod_lt _ (by decide))
      (Nat.mod_lt _ (by decide)) (Nat.mod_lt _ (by decide)), quantum_three,
      decodeLoop_EncodeToString rest]
    simp

theorem DecodeString_EncodeToString (bs : Bytes) : DecodeString (EncodeToString bs) = bs := by
  simp [DecodeString, decodeLoop_EncodeToString]

/-- The characters `EncodeToString` writes: the alphabet and the padding. -/
theorem EncodeToString_chars : ∀ (bs : Bytes), ∀ ch ∈ EncodeToString bs, ch ∈ encodeStd ∨ ch = '='
  | [], ch, h => by simp [EncodeToString] at h
  | [a], ch, h => by
    simp only [EncodeToString, List.mem_cons, List.mem_nil_iff, or_false] at h
    rcases h with h | h | h | h
    · left; rw [h]; exact encode_mem ⟨_, Nat.mod_lt _ (by decide)⟩
    · left; rw [h]; exact encode_mem ⟨_, Nat.mod_lt _ (by decide)⟩
    · right; exact h
    · right; exact h
  | [a, b], ch, h => by
    simp only [EncodeToString, List.mem_cons, List.mem_nil_iff, or_false] at h
    rcases h with h | h | h | h
    · left; rw [h]; exact encode_mem ⟨_, Nat.mod_lt _ (by decide)⟩
    · left; rw [h]; exact encode_mem ⟨_, Nat.mod_lt _ (by decide)⟩
    · left; rw [h]; exact encode_mem ⟨_, Nat.mod_lt _ (by decide)⟩
    · right; exact h
  | a :: b :: c :: rest, ch, h => by
    simp only [EncodeToString, List.mem_cons] at h
    rcases h with h | h | h | h | h
    · left; rw [h]; exact encode_mem ⟨_, Nat.mod_lt _ (by decide)⟩
    · left; rw [h]; exact encode_mem ⟨_, Nat.mod_lt _ (by decide)⟩
    · left; rw [h]; exact encode_mem ⟨_, Nat.mod_lt _ (by decide)⟩
    · left; rw [h]; exact encode_mem ⟨_, Nat.mod_lt _ (by decide)⟩
    · exact EncodeToString_chars rest ch h

theorem EncodeToString_no_colon (bs : Bytes) : ':' ∉ EncodeToString bs := by
  intro h
  rcases EncodeToString_chars bs _ h with h1 | h1
  · exact (alphabet_chars _ h1).1 rfl
  · exact absurd h1 (by decide)

theorem EncodeToString_no_underscore (bs : Bytes) : '_' ∉ EncodeToString bs := by
  intro h
  rcases EncodeToString_chars bs _ h with h1 | h1
  · exact (alphabet_chars _ h1).2.1 rfl
  · exact absurd h1 (by decide)

end base64

namespace strings

theorem Split_ne_nil (s : Str) (sep : Char) : Split s sep ≠ [] := by
  induction s with
  | nil => simp [Split]
  | cons c s ih =>
    simp only [Split]
    split
    · simp
    · split <;> simp

theorem Split_noSep (s : Str) (sep : Char) (hs : sep ∉ s) : Split s sep = [s] := by
  induction s with
  | nil => simp [Split]
  | cons c s ih =>
    have hc : c ≠ sep := fun h => hs (by simp [h])
    have hs2 : sep ∉ s := fun h => hs (by simp [h])
    simp [Split, hc, ih hs2]

/-- Two pieces without the separator, joined by it, are what `Split` returns. -/
theorem Split_two (a b : Str) (sep : Char) (ha : sep ∉ a) (hb : sep ∉ b) :
    Split (a ++ sep :: b) sep = [a, b] := by
  induction a with
  | nil => simp [Split, Split_noSep b sep hb]
  | cons c a ih =>
    have hc : c ≠ sep := fun h => ha (by simp [h])
    have ha2 : sep ∉ a := fun h => ha (by simp [h])
    simp [Split, hc, ih ha2]

theorem ReplaceAll_undo (s : Str) (old new : Char) (hs : new ∉ s) :
    ReplaceAll (ReplaceAll s old new) new old = s := by
  induction s with
  | nil => rfl
  | cons c s ih =>
    have hc : c ≠ new := fun h => hs (by simp [h])
    have hs2 : new ∉ s := fun h => hs (by simp [h])
    have ih2 := ih hs2
    simp only [ReplaceAll, List.map_cons, List.map_map] at ih2 ⊢
    rw [ih2]
    by_cases h : c = old
    · simp [h]
    · simp [h, hc]

theorem ReplaceAll_no_old (s : Str) (old new : Char) (h : old ≠ new) :
    old ∉ ReplaceAll s old new := by
  simp only [ReplaceAll, List.mem_map, not_exists, not_and]
  intro c _ hc
  by_cases h2 : c = old
  · simp [h2] at hc; exact h hc.symm
  · simp [h2] at hc

end strings

/-- The string before the replacement: both encodings joined by a colon. -/
theorem wire_eq (tk sig : Bytes) :
    wire tk sig =
      strings.ReplaceAll (base64.EncodeToString tk ++ ':' :: base64.EncodeToString sig) '/' '_' := by
  simp [wire, str]

theorem raw_no_underscore (tk sig : Bytes) :
    '_' ∉ base64.EncodeToString tk ++ ':' :: base64.EncodeToString sig := by
  intro h
  simp only [List.mem_append, List.mem_cons] at h
  rcases h with h | h | h
  · exact base64.EncodeToString_no_underscore tk h
  · exact absurd h (by decide)
  · exact base64.EncodeToString_no_underscore sig h

/-- The first steps of `Decode` give back what `Encode` put on the wire. -/
theorem unwire_wire (tk sig : Bytes) : unwire (wire tk sig) = some (tk, sig) := by
  unfold unwire
  rw [wire_eq, strings.ReplaceAll_undo _ '/' '_' (raw_no_underscore tk sig),
    strings.Split_two _ _ ':' (base64.EncodeToString_no_colon tk)
      (base64.EncodeToString_no_colon sig)]
  simp [base64.DecodeString_EncodeToString]

/-- C4. The string `Encode` builds from the token bytes `tk` and the signature
`sig` contains no `'/'`, has a `'+'` wherever the base64 text has one, and
contains exactly one `':'`; undoing the replacement and splitting on `':'` gives
exactly the two base64 texts, which decode to `tk` and `sig`. -/
theorem wire_form (tk sig : Bytes) :
    '/' ∉ wire tk sig ∧
    (∀ n, (base64.EncodeToString tk ++ str ":" ++ base64.EncodeToString sig).get? n = some '+' →
      (wire tk sig).get? n = some '+') ∧
    (wire tk sig).count ':' = 1 ∧
    strings.Split (strings.ReplaceAll (wire tk sig) '_' '/') ':' =
      [base64.EncodeToString tk, base64.EncodeToString sig] ∧
    base64.DecodeString (base64.EncodeToString tk) = tk ∧
    base64.DecodeString (base64.EncodeToString sig) = sig ∧
    unwire (wire tk sig) = some (tk, sig) := by
  refine ⟨?_, ?_, ?_, ?_, base64.DecodeString_EncodeToString tk,
    base64.DecodeString_EncodeToString sig, unwire_wire tk sig⟩
  · exact strings.ReplaceAll_no_old _ '/' '_' (by decide)
  · intro n hn
    simp only [wire, strings.ReplaceAll, List.get?_eq_getElem?, List.getElem?_map] at hn ⊢
    rw [hn]
    decide
  · rw [wire_eq]
    simp only [strings.ReplaceAll, List.map_append, List.map_cons, List.count_append]
    have hA : ∀ (bs : Bytes),
        List.count ':' (List.map (fun c => if c = '/' then '_' else c)
          (base64.EncodeToString bs)) = 0 := by
      intro bs
      rw [List.count_eq_zero]
      intro h
      simp only [List.mem_map] at h
      obtain ⟨c, hc, hcc⟩ := h
      by_cases h2 : c = '/'
      · simp [h2] at hcc
      · simp only [h2, if_false] at hcc
        rw [hcc] at hc
        exact base64.EncodeToString_no_colon bs hc
    simp [hA]
  · rw [wire_eq, strings.ReplaceAll_undo _ '/' '_' (raw_no_underscore tk sig),
      strings.Split_two _ _ ':' (base64.EncodeToString_no_colon tk)
        (base64.EncodeToString_no_colon sig)]


/-! ### `Encode` and `Decode` -/

theorem decodeKeys_absent (sec : Security) (self : Identity) (selfId : Str) :
    ∀ (keys : List (Str × Bytes)) (rcp : List Str) (mk : Option Bytes) (calls : List Call),
      selfId ∉ keys.map Prod.fst →
      decodeKeys sec self selfId keys rcp mk calls = (.ok (rcp ++ keys.map Prod.fst, mk), calls)
  | [], rcp, mk, calls, _ => by simp [decodeKeys]
  | (id, key) :: rest, rcp, mk, calls, h => by
    have hid : id ≠ selfId := fun e => h (by simp [e])
    have hrest : selfId ∉ rest.map Prod.fst := fun e => h (by simp [List.mem_map] at e ⊢; exact Or.inr e)
    simp only [decodeKeys, if_neg hid]
    rw [decodeKeys_absent sec self selfId rest _ mk calls hrest]
    simp

theorem decodeKeys_found (sec : Security) (self : Identity) (selfId : Str) (mk0 : Bytes) :
    ∀ (keys : List (Str × Bytes)) (rcp : List Str) (mk : Option Bytes) (calls : List Call),
      (∀ key, (selfId, key) ∈ keys → sec.EcDecrypt self key = .ok (some mk0)) →
      ∃ calls2, decodeKeys sec self selfId keys rcp mk calls =
        (.ok (rcp ++ keys.map Prod.fst,
          if selfId ∈ keys.map Prod.fst then some mk0 else mk), calls2)
  | [], rcp, mk, calls, _ => ⟨calls, by simp [decodeKeys]⟩
  | (id, key) :: rest, rcp, mk, calls, h => by
    have hrest : ∀ key, (selfId, key) ∈ rest → sec.EcDecrypt self key = .ok (some mk0) :=
      fun k hk => h k (List.mem_cons_of_mem _ hk)
    by_cases hid : id = selfId
    · subst hid
      have hdec := h key (List.mem_cons_self _ _)
      obtain ⟨calls2, h2⟩ := decodeKeys_found sec self id mk0 rest (rcp ++ [id]) (some mk0)
        (calls ++ [Call.EcDecrypt self key]) hrest
      refine ⟨calls2, ?_⟩
      simp only [decodeKeys, if_true, hdec, h2]
      simp
    · obtain ⟨calls2, h2⟩ := decodeKeys_found sec self selfId mk0 rest (rcp ++ [id]) mk calls hrest
      refine ⟨calls2, ?_⟩
      have hid2 : ¬ selfId = id := fun e => hid e.symm
      simp only [decodeKeys, if_neg hid, h2, List.map_cons, List.mem_cons, hid2, false_or]
      simp

theorem keysSet_mem (m : List (Str × Bytes)) (k : Str) (v : Bytes) (e : Str × Bytes)
    (h : e ∈ keysSet m k v) : e ∈ m ∨ e = (k, v) := by
  unfold keysSet at h
  split at h
  · simp only [List.mem_map] at h
    obtain ⟨x, hx, hxe⟩ := h
    split at hxe
    · right; exact hxe.symm
    · left; rw [← hxe]; exact hx
  · simpa using h

theorem keysSet_fst (m : List (Str × Bytes)) (k : Str) (v : Bytes) (id : Str) :
    id ∈ (keysSet m k v).map Prod.fst ↔ id ∈ m.map Prod.fst ∨ id = k := by
  unfold keysSet
  split
  · rename_i hany
    have hmap : (m.map (fun e => if (e.1 == k) = true then (k, v) else e)).map Prod.fst
        = m.map Prod.fst := by
      rw [List.map_map]
      apply List.map_congr_left
      intro e _
      by_cases he : e.1 = k
      · simp [he]
      · simp [he]
    rw [hmap]
    constructor
    · exact Or.inl
    · rintro (h | h)
      · exact h
      · simp only [List.any_eq_true, beq_iff_eq] at hany
        obtain ⟨x, hx, hxk⟩ := hany
        rw [h, ← hxk]
        exact List.mem_map_of_mem _ hx
  · simp

/-- Every entry `Encode` writes into `Keys` is for a recipient id, and holds the
master key encrypted to the identity of that id. -/
theorem encodeKeys_mem (sec : Security) (mk : Bytes) :
    ∀ (ids : List Str) (keys : List (Str × Bytes)) (e : Str × Bytes),
      e ∈ encodeKeys sec mk ids keys →
      e ∈ keys ∨ (e.1 ∈ ids ∧ ∃ p, sec.IdentityFromId e.1 = .ok p ∧ sec.EcEncrypt p mk = .ok e.2)
  | [], keys, e, h => by simpa [encodeKeys] using h
  | id :: ids, keys, e, h => by
    unfold encodeKeys at h
    split at h
    · rename_i p hp
      split at h
      · rename_i key hkey
        rcases encodeKeys_mem sec mk ids _ e h with h1 | ⟨h1, h2⟩
        · rcases keysSet_mem _ _ _ _ h1 with h3 | h3
          · exact Or.inl h3
          · right
            rw [h3]
            exact ⟨List.mem_cons_self _ _, p, hp, hkey⟩
        · exact Or.inr ⟨List.mem_cons_of_mem _ h1, h2⟩
      · rcases encodeKeys_mem sec mk ids _ e h with h1 | ⟨h1, h2⟩
        · exact Or.inl h1
        · exact Or.inr ⟨List.mem_cons_of_mem _ h1, h2⟩
    · rcases encodeKeys_mem sec mk ids _ e h with h1 | ⟨h1, h2⟩
      · exact Or.inl h1
      · exact Or.inr ⟨List.mem_cons_of_mem _ h1, h2⟩

theorem encodeKeys_keeps (sec : Security) (mk : Bytes) :
    ∀ (ids : List Str) (keys : List (Str × Bytes)) (id : Str),
      id ∈ keys.map Prod.fst → id ∈ (encodeKeys sec mk ids keys).map Prod.fst
  | [], keys, id, h => by simpa [encodeKeys] using h
  | i :: ids, keys, id, h => by
    unfold encodeKeys
    split
    · split
      · exact encodeKeys_keeps sec mk ids _ id ((keysSet_fst _ _ _ _).mpr (Or.inl h))
      · exact encodeKeys_keeps sec mk ids _ id h
    · exact encodeKeys_keeps sec mk ids _ id h

/-- A recipient id that is the id of an identity to which the master key can be
encrypted gets an entry in `Keys`. -/
theorem encodeKeys_has (sec : Security) (mk : Bytes) (id : Str) (p : Identity) (key : Bytes)
    (hp : sec.IdentityFromId id = .ok p) (hkey : sec.EcEncrypt p mk = .ok key) :
    ∀ (ids : List Str) (keys : List (Str × Bytes)),
      id ∈ ids → id ∈ (encodeKeys sec mk ids keys).map Prod.fst
  | [], _, h => by simp at h
  | i :: ids, keys, h => by
    by_cases hi : i = id
    · subst hi
      unfold encodeKeys
      simp only [hp, hkey]
      exact encodeKeys_keeps sec mk ids _ i ((keysSet_fst _ _ _ _).mpr (Or.inr rfl))
    · have h2 : id ∈ ids := by
        rcases List.mem_cons.mp h with h3 | h3
        · exact absurd h3.symm hi
        · exact h3
      unfold encodeKeys
      split
      · split
        · exact encodeKeys_has sec mk id p key hp hkey ids _ h2
        · exact encodeKeys_has sec mk id p key hp hkey ids _ h2
      · exact encodeKeys_has sec mk id p key hp hkey ids _ h2


theorem unwire_of_split (token tk64 sig64 : Str)
    (h : strings.Split (strings.ReplaceAll token '_' '/') ':' = [tk64, sig64]) :
    unwire token = some (base64.DecodeString tk64, base64.DecodeString sig64) := by
  simp [unwire, h]

theorem Decode_bad_signature (sec : Security) (self : Identity) (token : Str) (tk sig : Bytes)
    (t : Token) (hw : unwire token = some (tk, sig)) (ht : sec.unmarshalToken tk = .ok t)
    (hv : sec.Verify t.SenderId tk sig = false) :
    Decode sec self token =
      ((Invite.zero, some Error.ErrInvalidSignature), [Call.Verify t.SenderId tk sig]) := by
  simp [Decode, hw, ht, hv]

theorem Decode_verified (sec : Security) (self : Identity) (token : Str) (tk sig : Bytes)
    (t : Token) (sender : Identity) (hw : unwire token = some (tk, sig))
    (ht : sec.unmarshalToken tk = .ok t) (hv : sec.Verify t.SenderId tk sig = true)
    (hs : decodeSender sec t = .ok sender) :
    Decode sec self token =
      match decodeKeys sec self (self.Id sec) t.Keys [] none [Call.Verify t.SenderId tk sig] with
      | (.error err, calls) => ((Invite.zero, some err), calls)
      | (.ok (recipients, masterKey), calls) =>
        decodeConfig sec t
          { Subject := t.Subject, Sender := sender, RecipientIds := recipients, Config := none }
          masterKey calls := by
  simp [Decode, hw, ht, hv, hs]

theorem decodeSender_ok (sec : Security) (t : Token)
    (h : sec.GetIdentity t.SenderId = none → ∃ s, sec.IdentityFromId t.SenderId = .ok s) :
    ∃ sender, decodeSender sec t = .ok sender := by
  unfold decodeSender
  cases hg : sec.GetIdentity t.SenderId with
  | some s => exact ⟨s, rfl⟩
  | none =>
    obtain ⟨s, hs⟩ := h hg
    exact ⟨{ s with Nick := t.SenderNick }, by simp [hs]⟩

theorem decodeSender_id (sec : Security) (t : Token) (sender : Identity)
    (hk : SenderKnown sec t.SenderId) (h : decodeSender sec t = .ok sender) :
    sender.Id sec = t.SenderId := by
  unfold decodeSender at h
  cases hg : sec.GetIdentity t.SenderId with
  | some s =>
    simp only [hg, Except.ok.injEq] at h
    rw [← h]
    exact hk.1 s hg
  | none =>
    obtain ⟨s, hs, hid⟩ := hk.2 hg
    simp only [hg, hs, Except.ok.injEq] at h
    rw [← h]
    exact hid


/-- C2. For a token string that splits into exactly two parts whose first part
decodes to bytes that parse as a token, if `Verify` rejects the signature then
`Decode` returns `ErrInvalidSignature` with the empty invite, and the only call
it has made is that `Verify`: nothing was decrypted and no config was parsed. -/
theorem Decode_invalid_signature (sec : Security) (self : Identity) (token tk64 sig64 : Str)
    (t : Token)
    (hsplit : strings.Split (strings.ReplaceAll token '_' '/') ':' = [tk64, sig64])
    (ht : sec.unmarshalToken (base64.DecodeString tk64) = .ok t)
    (hv : sec.Verify t.SenderId (base64.DecodeString tk64) (base64.DecodeString sig64) = false) :
    (Decode sec self token).1 =
      (⟨[], ⟨[], ⟨[], []⟩, ⟨[], []⟩⟩, [], none⟩, some Error.ErrInvalidSignature) ∧
    (Decode sec self token).2 =
      [Call.Verify t.SenderId (base64.DecodeString tk64) (base64.DecodeString sig64)] := by
  rw [Decode_bad_signature sec self token _ _ t (unwire_of_split token tk64 sig64 hsplit) ht hv]
  exact ⟨rfl, rfl⟩

/-- Witness of C2: the token of `alice` for `bob` with the signature replaced by
the bytes 9, 9. -/
theorem Decode_invalid_signature_witness :
    (Decode toySec bob (wire [1] [9, 9])).1 =
      (⟨[], ⟨[], ⟨[], []⟩, ⟨[], []⟩⟩, [], none⟩, some Error.ErrInvalidSignature) ∧
    (Decode toySec bob (wire [1] [9, 9])).2 =
      [Call.Verify (str "bc") (base64.DecodeString (str "AQ==")) (base64.DecodeString (str "CQk="))] :=
  Decode_invalid_signature toySec bob (wire [1] [9, 9]) (str "AQ==") (str "CQk=") tokenForBob
    (by decide) (by decide) (by decide)

/-- C3 (amended). For a token string that splits in two, parses, carries a
signature that `Verify` accepts and a sender id that resolves to an identity
(the trust store has it, or `IdentityFromId` builds it), and for `self` whose id
is not a key of `Keys`: `Decode` returns no error and an invite with the subject
of the token, a nil config, and as recipients exactly the keys of `Keys`, one
for each entry. -/
theorem Decode_third_party (sec : Security) (self : Identity) (token tk64 sig64 : Str)
    (t : Token)
    (hsplit : strings.Split (strings.ReplaceAll token '_' '/') ':' = [tk64, sig64])
    (ht : sec.unmarshalToken (base64.DecodeString tk64) = .ok t)
    (hv : sec.Verify t.SenderId (base64.DecodeString tk64) (base64.DecodeString sig64) = true)
    (hsender : sec.GetIdentity t.SenderId = none → ∃ s, sec.IdentityFromId t.SenderId = .ok s)
    (hself : self.Id sec ∉ t.Keys.map Prod.fst) :
    ∃ sender, decodeSender sec t = .ok sender ∧
      (Decode sec self token).1 =
        ({ Subject := t.Subject, Sender := sender, RecipientIds := t.Keys.map Prod.fst,
           Config := none }, none) := by
  obtain ⟨sender, hs⟩ := decodeSender_ok sec t hsender
  refine ⟨sender, hs, ?_⟩
  rw [Decode_verified sec self token _ _ t sender (unwire_of_split token tk64 sig64 hsplit)
    ht hv hs, decodeKeys_absent sec self _ t.Keys [] none _ hself]
  simp [decodeConfig]

/-- Witness of C3 (amended): `carol` decodes the token `alice` encoded for `bob`
(id `de`). -/
theorem Decode_third_party_witness :
    ∃ sender, decodeSender toySec tokenForBob = .ok sender ∧
      (Decode toySec carol (wire [1] [1, 1])).1 =
        ({ Subject := str "hi", Sender := sender, RecipientIds := [str "de"],
           Config := none }, none) :=
  Decode_third_party toySec carol (wire [1] [1, 1]) (str "AQ==") (str "AQE=") tokenForBob
    (by decide) (by decide) (by decide) (fun _ => ⟨publicForm alice, by decide⟩) (by decide)

/-- C3 as stated fails when the sender id does not resolve: the token string
splits in two, its first part parses as the token of `alice` for `bob`, `Verify`
accepts the signature and the id of `carol` is not a key of `Keys`, but the
trust store does not know the sender and `IdentityFromId` fails on its id, so
`Decode` returns that error with the empty invite, whose recipients are not the
keys of `Keys`. -/
theorem Decode_third_party_unknown_sender :
    strings.Split (strings.ReplaceAll (wire [1] [1, 1]) '_' '/') ':' =
      [str "AQ==", str "AQE="] ∧
    lenientSec.unmarshalToken (base64.DecodeString (str "AQ==")) = .ok tokenForBob ∧
    lenientSec.Verify tokenForBob.SenderId (base64.DecodeString (str "AQ=="))
      (base64.DecodeString (str "AQE=")) = true ∧
    carol.Id lenientSec ∉ tokenForBob.Keys.map Prod.fst ∧
    (Decode lenientSec carol (wire [1] [1, 1])).1 = (Invite.zero, some (Error.other 4)) ∧
    (Decode lenientSec carol (wire [1] [1, 1])).1.1.RecipientIds ≠
      tokenForBob.Keys.map Prod.fst := by
  decide

theorem Encode_ok (sec : Security) (i : Invite) (nonce masterKey : Bytes) (tok : Str)
    (h : Encode sec i nonce masterKey = (tok, none)) :
    ∃ c t tk sig, sec.marshalConfig i.Config = .ok c ∧
      encodeToken sec i nonce masterKey c = .ok t ∧ sec.marshalToken t = .ok tk ∧
      sec.Sign i.Sender tk = .ok sig ∧ tok = wire tk sig := by
  unfold Encode at h
  split at h
  · simp at h
  · rename_i c hc
    split at h
    · simp at h
    · rename_i t htok
      split at h
      · simp at h
      · rename_i tk htk
        split at h
        · simp at h
        · rename_i sig hsig
          simp only [Prod.mk.injEq, and_true] at h
          exact ⟨c, t, tk, sig, hc, htok, htk, hsig, h.symm⟩

/-- The token `Encode` builds: outer fields of the invite; without recipients no
keys and the plain config, with recipients the keys of `encodeKeys` and the
config encrypted under the master key and the nonce. -/
theorem encodeToken_ok (sec : Security) (i : Invite) (nonce masterKey c : Bytes) (t : Token)
    (h : encodeToken sec i nonce masterKey c = .ok t) :
    t.Subject = i.Subject ∧ t.SenderId = i.Sender.Id sec ∧ t.SenderNick = i.Sender.Nick ∧
    (i.RecipientIds = [] → t.Keys = []) ∧
    (i.RecipientIds ≠ [] → t.Noonce = nonce ∧
      t.Keys = encodeKeys sec masterKey i.RecipientIds [] ∧
      sec.EncryptBlock masterKey nonce c = .ok t.Config) := by
  unfold encodeToken at h
  by_cases hr : i.RecipientIds = []
  · simp only [hr, List.length_nil, lt_self_iff_false, if_false, Except.ok.injEq] at h
    subst h
    simp [hr]
  · have hpos : 0 < i.RecipientIds.length := List.length_pos.mpr hr
    simp only [hpos, if_true] at h
    split at h
    · simp at h
    · rename_i cfg hcfg
      simp only [Except.ok.injEq] at h
      subst h
      simp [hr, hcfg]


/-- C1 (amended). For an invite `i` whose config is not nil and an identity `r`,
with primitives that are correct (what `Sign` produces with the sender is
accepted by `Verify`; the id of `r` is the id of an identity to which
`EcEncrypt` succeeds and `EcDecrypt` with `r` undoes it; `DecryptBlock` undoes
`EncryptBlock`; JSON unmarshal undoes marshal; the sender's id resolves to an
identity with that id): when `Encode` returns a token, `Decode` of it by `r`
returns no error and an invite with the subject and the sender id of `i`, whose
config equals that of `i` if and only if the id of `r` is among the recipient
ids of `i`, and is nil otherwise. -/
theorem Decode_Encode (sec : Security) (i : Invite) (r : Identity) (nonce masterKey : Bytes)
    (cfg : Config) (tok : Str)
    (hcfg : i.Config = some cfg)
    (hsign : SignCorrect sec i.Sender) (hec : EcCorrect sec r) (hblock : BlockCorrect sec)
    (hjson : JsonCorrect sec) (hsender : SenderKnown sec (i.Sender.Id sec))
    (henc : Encode sec i nonce masterKey = (tok, none)) :
    ∃ inv, (Decode sec r tok).1 = (inv, none) ∧
      inv.Subject = i.Subject ∧ inv.Sender.Id sec = i.Sender.Id sec ∧
      (inv.Config = i.Config ↔ r.Id sec ∈ i.RecipientIds) ∧
      (r.Id sec ∉ i.RecipientIds → inv.Config = none) := by
  obtain ⟨c, t, tk, sig, hmc, htok, hmt, hsg, rfl⟩ := Encode_ok sec i nonce masterKey tok henc
  obtain ⟨hS, hSid, -, hK0, hK1⟩ := encodeToken_ok sec i nonce masterKey c t htok
  obtain ⟨t2, hut, h2S, h2Sid, -, h2N, h2C, hperm⟩ := hjson.1 t tk hmt
  have hv : sec.Verify t2.SenderId tk sig = true := by
    rw [h2Sid, hSid]; exact hsign tk sig hsg
  have hsk : SenderKnown sec t2.SenderId := by
    rw [h2Sid, hSid]; exact hsender
  obtain ⟨sender, hs⟩ := decodeSender_ok sec t2
    (fun hg => (hsk.2 hg).elim (fun s h => ⟨s, h.1⟩))
  have hsid : sender.Id sec = i.Sender.Id sec := by
    rw [decodeSender_id sec t2 sender hsk hs, h2Sid, hSid]
  obtain ⟨pub, hpub, hkey⟩ := hec
  obtain ⟨key0, hkey0, hdec0⟩ := hkey masterKey
  have hentry : ∀ key, (r.Id sec, key) ∈ t2.Keys →
      r.Id sec ∈ i.RecipientIds ∧ sec.EcDecrypt r key = .ok (some masterKey) := by
    intro key hk
    have hk2 : (r.Id sec, key) ∈ t.Keys := hperm.mem_iff.mp hk
    by_cases hr : i.RecipientIds = []
    · rw [hK0 hr] at hk2; simp at hk2
    · rw [(hK1 hr).2.1] at hk2
      rcases encodeKeys_mem sec masterKey _ _ _ hk2 with h1 | ⟨h1, p, hp, hpk⟩
      · simp at h1
      · simp only at hp hpk h1
        rw [hpub] at hp
        cases hp
        rw [hkey0] at hpk
        cases hpk
        exact ⟨h1, hdec0⟩
  have hmem : r.Id sec ∈ t2.Keys.map Prod.fst ↔ r.Id sec ∈ i.RecipientIds := by
    constructor
    · intro h
      obtain ⟨e, he, he1⟩ := List.mem_map.mp h
      have : (r.Id sec, e.2) ∈ t2.Keys := by rw [← he1]; exact he
      exact (hentry e.2 this).1
    · intro h
      have hr : i.RecipientIds ≠ [] := List.ne_nil_of_mem h
      have h1 := encodeKeys_has sec masterKey (r.Id sec) pub key0 hpub hkey0 i.RecipientIds [] h
      rw [← (hK1 hr).2.1] at h1
      exact (hperm.map Prod.fst).mem_iff.mpr h1
  obtain ⟨calls2, hdk⟩ := decodeKeys_found sec r (r.Id sec) masterKey t2.Keys [] none
    [Call.Verify t2.SenderId tk sig] (fun key hk => (hentry key hk).2)
  rw [Decode_verified sec r (wire tk sig) tk sig t2 sender (unwire_wire tk sig) hut hv hs, hdk]
  by_cases hin : r.Id sec ∈ i.RecipientIds
  · have hr : i.RecipientIds ≠ [] := List.ne_nil_of_mem hin
    have hblk : sec.DecryptBlock masterKey t2.Noonce t2.Config = .ok c := by
      rw [h2N, h2C, (hK1 hr).1]
      exact hblock _ _ _ _ (hK1 hr).2.2
    have hum : sec.unmarshalConfig c = .ok cfg := by
      rw [hcfg] at hmc
      exact hjson.2 cfg c hmc
    simp only [if_pos (hmem.mpr hin), decodeConfig, hblk, hum]
    exact ⟨_, rfl, by rw [← hS, ← h2S], hsid, by simp [hcfg, hin], fun h => absurd hin h⟩
  · have hnot : ¬ r.Id sec ∈ t2.Keys.map Prod.fst := fun h => hin (hmem.mp h)
    simp only [if_neg hnot, decodeConfig]
    exact ⟨_, rfl, by rw [← hS, ← h2S], hsid, by simp [hcfg, hin], fun _ => rfl⟩

theorem toy_SignCorrect : SignCorrect toySec alice := by
  intro data sig h
  simp only [toySec, Except.ok.injEq] at h
  subst h
  simp only [toySec, Identity.Id]
  have : toyFromId (toyIdOf alice.SignatureKey.Public alice.EncryptionKey.Public)
      = .ok (publicForm alice) := by decide
  rw [this]
  simp [publicForm, toySeal, alice, person]

theorem toy_EcCorrect_bob : EcCorrect toySec bob := by
  refine ⟨publicForm bob, by decide, fun mk => ⟨toySeal [4] mk, rfl, ?_⟩⟩
  simp [toySec, toyOpen, toySeal, bob, person, List.isPrefixOf]

theorem toy_EcCorrect_carol : EcCorrect toySec carol := by
  refine ⟨publicForm carol, by decide, fun mk => ⟨toySeal [6] mk, rfl, ?_⟩⟩
  simp [toySec, toyOpen, toySeal, carol, person, List.isPrefixOf]

theorem toy_BlockCorrect : BlockCorrect toySec := by
  intro key nonce plain data h
  simp only [toySec, Except.ok.injEq] at h
  subst h
  have hp : (key ++ nonce).isPrefixOf (toySeal (key ++ nonce) plain) = true := by
    rw [List.isPrefixOf_iff_prefix]
    exact List.prefix_append _ _
  simp only [toySec, toyOpen, hp, if_true]
  simp [toySeal]

theorem toy_JsonCorrect : JsonCorrect toySec := by
  constructor
  · intro t data h
    simp only [toySec, toyTokens, List.find?] at h
    by_cases h1 : tokenForBob = t
    · subst h1
      simp at h
      subst h
      exact ⟨tokenForBob, by decide, rfl, rfl, rfl, rfl, rfl, List.Perm.refl _⟩
    · by_cases h2 : tokenForNobody = t
      · subst h2
        have h3 : (tokenForBob == tokenForNobody) = false := by decide
        simp [h3] at h
        subst h
        exact ⟨tokenForNobody, by decide, rfl, rfl, rfl, rfl, rfl, List.Perm.refl _⟩
      · have h1b : (tokenForBob == t) = false := by simpa using h1
        have h2b : (tokenForNobody == t) = false := by simpa using h2
        rw [h1b] at h
        simp only [] at h
        rw [h2b] at h
        simp at h
  · intro c data h
    simp only [toySec] at h
    split at h
    · rename_i hc
      simp only [Except.ok.injEq] at h
      subst h
      subst hc
      decide
    · simp at h

theorem toy_SenderKnown : SenderKnown toySec (alice.Id toySec) := by
  refine ⟨fun s h => ?_, fun _ => ⟨publicForm alice, by decide, by decide⟩⟩
  simp [toySec] at h

/-- Witness of C1 (amended): `bob` decodes the invite `alice` encoded for him and
gets its config. -/
theorem Decode_Encode_witness :
    ∃ inv, (Decode toySec bob (wire [1] [1, 1])).1 = (inv, none) ∧
      inv.Subject = inviteBob.Subject ∧ inv.Sender.Id toySec = inviteBob.Sender.Id toySec ∧
      (inv.Config = inviteBob.Config ↔ bob.Id toySec ∈ inviteBob.RecipientIds) ∧
      (bob.Id toySec ∉ inviteBob.RecipientIds → inv.Config = none) :=
  Decode_Encode toySec inviteBob bob [7] [8] poolC (wire [1] [1, 1]) rfl toy_SignCorrect
    toy_EcCorrect_bob toy_BlockCorrect toy_JsonCorrect toy_SenderKnown (by decide)

/-- C1 as stated fails for an invite with a nil config: with correct primitives,
`bob` decodes the invite of `alice` that has a nil config and no recipient; the
call succeeds and the config it returns, nil, equals that of the invite, although
the id of `bob` is not among the recipient ids. -/
theorem Decode_Encode_nil_config :
    SignCorrect toySec alice ∧ EcCorrect toySec bob ∧ BlockCorrect toySec ∧
    JsonCorrect toySec ∧ SenderKnown toySec (alice.Id toySec) ∧
    inviteNobody.Config = none ∧
    Encode toySec inviteNobody [] [] = (wire [2] [1, 2], none) ∧
    (Decode toySec bob (wire [2] [1, 2])).1 =
      (⟨str "hi", { publicForm alice with Nick := str "alice" }, [], none⟩, none) ∧
    ¬ ((Decode toySec bob (wire [2] [1, 2])).1.1.Config = inviteNobody.Config ↔
        bob.Id toySec ∈ inviteNobody.RecipientIds) :=
  ⟨toy_SignCorrect, toy_EcCorrect_bob, toy_BlockCorrect, toy_JsonCorrect, toy_SenderKnown,
    rfl, by decide, by decide, by decide⟩



/-! ### `S3.Touched` -/

theorem Touched_head_none (s : S3) (c : Conn) (name : Str)
    (h : s.HeadObject c (name ++ str ".touch") = none) :
    s.Touched c name = (true, s) := by
  simp [S3.Touched, h]

theorem Touched_head_some (s : S3) (c : Conn) (name : Str) (o : Object)
    (h : s.HeadObject c (name ++ str ".touch") = some o) :
    s.Touched c name =
      if After o.LastModified (mapGet s.touch name) then
        (true, if c.putFails then s else
          { objects := ⟨name ++ str ".touch", c.now, 0⟩ ::
              s.objects.filter (fun x => x.Key != name ++ str ".touch"),
            touch := mapSet s.touch name o.LastModified })
      else (false, s) := by
  simp only [S3.Touched, h, S3.Write]
  by_cases hA : After o.LastModified (mapGet s.touch name) = true
  · by_cases hp : c.putFails = true <;> simp [hA, hp]
  · simp [hA]

theorem mapGet_mapSet (m : List (Str × Time)) (k : Str) (v : Time) :
    mapGet (mapSet m k v) k = v := by
  simp [mapGet, mapSet, List.lookup]

/-- C6. `Touched(name)` returns true exactly when the sentinel `<name>.touch`
cannot be read or its last-modified time is strictly after the time remembered
for `name` (the zero time when none is remembered); when the sentinel is read
and the two times are identical it returns false and leaves bucket and
remembered times as they were. -/
theorem Touched_return_value (s : S3) (c : Conn) (name : Str) :
    ((s.Touched c name).1 = true ↔
      (s.HeadObject c (name ++ str ".touch") = none ∨
        ∃ o, s.HeadObject c (name ++ str ".touch") = some o ∧
          ((s.touch.lookup name).getD zeroTime) < o.LastModified)) ∧
    (∀ o, s.HeadObject c (name ++ str ".touch") = some o →
      o.LastModified = (s.touch.lookup name).getD zeroTime →
      s.Touched c name = (false, s)) := by
  constructor
  · cases h : s.HeadObject c (name ++ str ".touch") with
    | none => simp [Touched_head_none s c name h]
    | some o =>
      rw [Touched_head_some s c name o h]
      by_cases hA : After o.LastModified (mapGet s.touch name) = true
      · have : (s.touch.lookup name).getD zeroTime < o.LastModified := by
          simpa [After, mapGet] using hA
        simp [hA, this]
      · have : ¬ (s.touch.lookup name).getD zeroTime < o.LastModified := by
          simpa [After, mapGet] using hA
        simp [hA, this]
  · intro o h heq
    rw [Touched_head_some s c name o h]
    have : After o.LastModified (mapGet s.touch name) = false := by
      simp [After, mapGet, heq]
    simp [this]

/-- After a call that found the sentinel newer than remembered and re-wrote
it, the next call returns true again whenever the store stamped the re-written
sentinel later than the sentinel it replaced: the time remembered is the one
read before the write. -/
theorem Touched_again_after_rewrite (s : S3) (c1 c2 : Conn) (name : Str) (o : Object)
    (h : s.HeadObject c1 (name ++ str ".touch") = some o)
    (hA : mapGet s.touch name < o.LastModified)
    (hput : c1.putFails = false) (hhead : c2.headFails = false)
    (hclock : o.LastModified < c1.now) :
    s.Touched c1 name =
      (true, { objects := ⟨name ++ str ".touch", c1.now, 0⟩ ::
                  s.objects.filter (fun x => x.Key != name ++ str ".touch"),
               touch := mapSet s.touch name o.LastModified }) ∧
    ((s.Touched c1 name).2.Touched c2 name).1 = true := by
  have hA1 : After o.LastModified (mapGet s.touch name) = true := by simp [After, hA]
  have h1 := Touched_head_some s c1 name o h
  simp only [hA1, hput, if_true] at h1
  refine ⟨by simpa using h1, ?_⟩
  rw [h1]
  simp only [Bool.false_eq_true, if_false]
  have h2 : S3.HeadObject
      { objects := ⟨name ++ str ".touch", c1.now, 0⟩ ::
          s.objects.filter (fun x => x.Key != name ++ str ".touch"),
        touch := mapSet s.touch name o.LastModified } c2 (name ++ str ".touch")
      = some ⟨name ++ str ".touch", c1.now, 0⟩ := by
    simp [S3.HeadObject, hhead, List.find?]
  rw [Touched_head_some _ c2 name _ h2]
  simp [After, mapGet_mapSet, hclock]

/-- C5. On a bucket whose sentinel `h.touch` was last modified at time 1, a
client that remembers nothing calls `Touched("h")`: the call finds the
sentinel, returns true, re-writes the sentinel (stamped 2 by the store) and
remembers time 1. Nobody else writes; the next call returns true again. -/
theorem Touched_twice_both_true :
    sentinelOnly.HeadObject (okConn 2) (str "h.touch") = some ⟨str "h.touch", 1, 0⟩ ∧
    sentinelOnly.Touched (okConn 2) (str "h") =
      (true, ⟨[⟨str "h.touch", 2, 0⟩], [(str "h", 1)]⟩) ∧
    ((sentinelOnly.Touched (okConn 2) (str "h")).2.Touched (okConn 3) (str "h")).1 = true := by
  decide

/-! ### `S3.Delete` -/

theorem DeleteObject_objects (s : S3) (c : Conn) (key : Str) :
    (∀ o ∈ (s.DeleteObject c key).2.objects, o ∈ s.objects) ∧
    (∀ o ∈ s.objects, o.Key ≠ key → o ∈ (s.DeleteObject c key).2.objects) := by
  unfold S3.DeleteObject
  split
  · exact ⟨fun o h => h, fun o h _ => h⟩
  · constructor
    · intro o h
      exact (List.mem_filter.mp h).1
    · intro o h hk
      exact List.mem_filter.mpr ⟨h, by simpa using hk⟩

theorem deleteItems_objects (c : Conn) (keep : Str → Prop) :
    ∀ (items : List Object) (s : S3), (∀ i ∈ items, ¬ keep i.Key) →
      (∀ o ∈ (s.deleteItems c items).2.objects, o ∈ s.objects) ∧
      (∀ o ∈ s.objects, keep o.Key → o ∈ (s.deleteItems c items).2.objects)
  | [], s, _ => ⟨fun _ h => h, fun _ h _ => h⟩
  | item :: items, s, h => by
    have hD := DeleteObject_objects s c item.Key
    unfold S3.deleteItems
    split
    · rename_i err s1 h1
      have : s1 = (s.DeleteObject c item.Key).2 := by rw [h1]
      subst this
      refine ⟨hD.1, fun o ho hk => hD.2 o ho ?_⟩
      intro e
      exact h item (List.mem_cons_self _ _) (e ▸ hk)
    · rename_i s1 h1
      have : s1 = (s.DeleteObject c item.Key).2 := by rw [h1]
      subst this
      have ih := deleteItems_objects c keep items (s.DeleteObject c item.Key).2
        (fun i hi => h i (List.mem_cons_of_mem _ hi))
      refine ⟨fun o ho => hD.1 o (ih.1 o ho), fun o ho hk => ih.2 o (hD.2 o ho ?_) hk⟩
      intro e
      exact h item (List.mem_cons_self _ _) (e ▸ hk)

/-- What `Delete` does keep: it adds and changes nothing, and every object whose
key is neither `name` nor starts with `name + "/"` is still there. -/
theorem Delete_frame (s : S3) (c : Conn) (name : Str) :
    (∀ o ∈ (s.Delete c name).2.objects, o ∈ s.objects) ∧
    (∀ o ∈ s.objects, o.Key ≠ name → (name ++ ['/']).isPrefixOf o.Key = false →
      o ∈ (s.Delete c name).2.objects) := by
  unfold S3.Delete
  split
  · rename_i item items hl
    have hitems : ∀ i ∈ item :: items,
        ¬ (i.Key ≠ name ∧ (name ++ ['/']).isPrefixOf i.Key = false) := by
      intro i hi
      unfold S3.ListObjects at hl
      split at hl
      · simp at hl
      · simp only [Except.ok.injEq] at hl
        rw [← hl] at hi
        have h2 := (List.mem_filter.mp (List.mem_of_mem_take hi)).2
        simp only [Bool.and_eq_true] at h2
        intro h3
        rw [h3.2] at h2
        simp at h2
    have h := deleteItems_objects c
      (fun k => k ≠ name ∧ (name ++ ['/']).isPrefixOf k = false) (item :: items) s hitems
    exact ⟨h.1, fun o ho h1 h2 => h.2 o ho ⟨h1, h2⟩⟩
  · have h := DeleteObject_objects s c name
    exact ⟨h.1, fun o ho h1 _ => h.2 o ho h1⟩

/-- C7. On the bucket `a`, `a/b`, `a/c/d`, `z`, `Delete("a")` returns without
error and removes only `a/b`: the object `a` itself and the deeper object
`a/c/d` are still there. -/
theorem Delete_leaves_object_and_grandchild :
    (treeBucket.Delete (okConn 9) (str "a")).1 = none ∧
    (treeBucket.Delete (okConn 9) (str "a")).2.objects.map Object.Key =
      [str "a", str "a/c/d", str "z"] := by
  decide

/-! ### `S3.ReadDir` -/

theorem sliceFrom_clean_dir (dir key : Str) (hclean : path.Clean dir = dir)
    (hkey : (dir ++ ['/']).isPrefixOf key = true) :
    sliceFrom key ((path.Clean dir).length + 1) = some (key.drop (dir ++ ['/']).length) := by
  rw [hclean]
  have hp : (dir ++ ['/']) <+: key := List.isPrefixOf_iff_prefix.mp hkey
  have hlen : (dir ++ ['/']).length ≤ key.length := hp.length_le
  simp only [List.length_append, List.length_singleton] at hlen ⊢
  simp [sliceFrom, hlen]

/-- C10. For `dir = "a/"` the listing prefix is `a//` while the cut is taken at
`len(path.Clean("a/")) + 1 = 2`: the object `a//x` gets the entry name `/x`, not
`x`. For `dir = ""` the prefix is `/` and the cut is at 2: on the object with
key `/` the slice expression is out of bounds and the call panics. -/
theorem ReadDir_unclean_dir :
    doubleSlashBucket.ReadDir (okConn 9) (str "a/") =
      some (.ok [{ name := str "/x", size := 1, isDir := false, modTime := 5 }]) ∧
    (str "a//x").drop (str "a/" ++ ['/']).length = str "x" ∧
    slashBucket.ReadDir (okConn 9) (str "") = none := by
  refine ⟨by rfl, by decide, by rfl⟩



/-! ### The models of the Go library functions on known values -/

/-- Values of `path.Clean`, `path.Split` and `path.Join` from the documentation
and the tests of Go's package `path`. -/
theorem path_known_values :
    path.Clean (str "a/b/../c//d/.") = str "a/c/d" ∧
    path.Clean (str "/../a") = str "/a" ∧
    path.Clean (str "../../a/..") = str "../.." ∧
    path.Clean (str "a/b/../../..") = str ".." ∧
    path.Clean (str "") = str "." ∧
    path.Clean (str "abc/def/../..") = str "." ∧
    path.Clean (str "/abc/def/../../x") = str "/x" ∧
    path.Split (str "a/b/#c") = (str "a/b/", str "#c") ∧
    path.Split (str "abc") = (str "", str "abc") ∧
    path.Join [str "a/", str "#c"] = str "a/#c" ∧
    path.Join [str "", str "#c"] = str "#c" ∧
    path.Join [str "a", str ""] = str "a" := by
  decide

/-- Values of the standard base64 encoding, of its decoder on malformed input
(the bytes decoded before the error are returned), and of `strings.Split`. -/
theorem base64_known_values :
    base64.EncodeToString [104, 101, 108, 108, 111] = str "aGVsbG8=" ∧
    base64.EncodeToString [255, 255, 254, 1] = str "///+AQ==" ∧
    base64.decodeLoop (str "aGVsbG8=") [] [] = ([104, 101, 108, 108, 111], false) ∧
    base64.decodeLoop (str "aGVs\nbG8=\n") [] [] = ([104, 101, 108, 108, 111], false) ∧
    base64.decodeLoop (str "aGVsbG8") [] [] = ([104, 101, 108], true) ∧
    base64.decodeLoop (str "aGVsbG8=x") [] [] = ([104, 101, 108, 108, 111], true) ∧
    base64.decodeLoop (str "aGV_bG8=") [] [] = ([], true) ∧
    strings.Split (str "a:b") ':' = [str "a", str "b"] ∧
    strings.Split (str "") ':' = [str ""] ∧
    strings.Split (str "a:b:") ':' = [str "a", str "b", str ""] ∧
    wire [255, 255, 254, 1] [104] = str "___+AQ==:aA==" := by
  decide

end Safepool
